import Mathlib

/- Verification of the File Content Access Layer (src/utilities/files.py).

   Shallow embedding. Paths and filenames are lists of characters, so the
   raw string operations of the code (endswith, replace, join) are modelled
   exactly. The filesystem is a finite association list from paths to byte
   contents plus a list of directory paths. The external libraries (json,
   pandas, aiofiles) are modelled at their interface: byte contents remember
   which serializer produced them, so that loading inverts dumping without
   re-implementing the serializers character by character. Exceptions are
   modelled with an Except monad whose error type distinguishes the
   exception classes the code names in its except clauses. -/

abbrev Str : Type := List Char

/-- Python str.replace, with a fuel argument so the recursion is structural:
    every leftmost non-overlapping occurrence of pat is replaced by repl.
    The code only ever calls it with a nonempty pattern. -/
def replaceFuel (pat repl : Str) : Nat → Str → Str
  | _, [] => []
  | 0, s => s
  | fuel+1, c :: cs =>
    if pat ≠ [] ∧ pat.isPrefixOf (c :: cs) then
      repl ++ replaceFuel pat repl fuel ((c :: cs).drop pat.length)
    else
      c :: replaceFuel pat repl fuel cs

/-- Python s.replace(pat, repl). -/
def pyReplace (s pat repl : Str) : Str := replaceFuel pat repl s.length s

/-- Python s.endswith(t). -/
def pyEndsWith (s t : Str) : Bool := t.isSuffixOf s

/-- os.path.join(a, b) for a relative second component. -/
def pjoin (a b : Str) : Str := a ++ '/' :: b

/-- Decides that pat occurs in ident ++ pat at no position strictly before
    the final position, i.e. that the only occurrence of pat in
    ident ++ pat is the trailing one. -/
def onlyTrailing (pat : Str) : Str → Bool
  | [] => true
  | c :: cs => !(pat.isPrefixOf ((c :: cs) ++ pat)) && onlyTrailing pat cs

/- A JSON-compatible Python value, as handled by the json module.
   Python floats are abstracted to integers; this loses nothing the
   module inspects. Arrays and objects are mutual inductives rather than
   nested lists so that recursion over values stays structural. -/
mutual
inductive JsonVal where
  | null
  | bool (b : Bool)
  | num (n : Int)
  | str (s : String)
  | arr (elems : JsonArr)
  | obj (fields : JsonObj)
inductive JsonArr where
  | nil
  | cons (hd : JsonVal) (tl : JsonArr)
inductive JsonObj where
  | nil
  | cons (key : String) (hd : JsonVal) (tl : JsonObj)
end

deriving instance DecidableEq for JsonVal

/-- A pandas DataFrame: named columns over ordered rows. Cell typing is
    abstracted to strings; none of the verified properties inspect cell
    types. -/
structure Frame where
  cols : List String
  rows : List (List String)
  deriving DecidableEq

def emptyFrame : Frame := ⟨[], []⟩

/- Serialization of a JSON value to text, as json.dumps produces. Exact
   formatting (indentation, spacing) is abstracted; no verified property
   inspects the rendered text. -/
mutual
def JsonVal.dumps : JsonVal → String
  | .null => "null"
  | .bool true => "true"
  | .bool false => "false"
  | .num n => toString n
  | .str s => "\"" ++ s ++ "\""
  | .arr es => "[" ++ es.dumps ++ "]"
  | .obj fs => "\x7b" ++ fs.dumps ++ "\x7d"
def JsonArr.dumps : JsonArr → String
  | .nil => ""
  | .cons x .nil => JsonVal.dumps x
  | .cons x tl => JsonVal.dumps x ++ ", " ++ tl.dumps
def JsonObj.dumps : JsonObj → String
  | .nil => ""
  | .cons k v .nil => "\"" ++ k ++ "\": " ++ JsonVal.dumps v
  | .cons k v tl => "\"" ++ k ++ "\": " ++ JsonVal.dumps v ++ ", " ++ tl.dumps
end

/-- Rendering of a frame as delimited text with a header row and no index
    column, as data.to_csv(path, index=False) produces. Quoting rules are
    abstracted. -/
def Frame.csvText (f : Frame) : String :=
  String.intercalate "\n"
    (String.intercalate "," f.cols :: f.rows.map (String.intercalate ","))

/-- Parsing of delimited text into a frame, as pd.read_csv does.
    Quoting and type inference are abstracted. -/
def parseCsv (s : String) : Frame :=
  match (s.splitOn "\n").map (fun r => r.splitOn ",") with
  | [] => emptyFrame
  | h :: rs => ⟨h, rs⟩

/-- The byte contents of a file, tagged by the serializer that produced
    them. Raw text that happens to parse as JSON is abstracted into the
    jsonDoc constructor. -/
inductive Bytes where
  | text (s : String)
  | jsonDoc (j : JsonVal) (indent : Nat)
  | csvDoc (f : Frame)
  | pickleDoc (f : Frame)
  | xlsxDoc (f : Frame)
  deriving DecidableEq

/-- The text obtained by reading the bytes in text mode. The rendering of
    binary snapshots and workbooks is abstracted to the empty string; no
    verified property inspects it. -/
def Bytes.asText : Bytes → String
  | .text s => s
  | .jsonDoc j _ => j.dumps
  | .csvDoc f => f.csvText
  | .pickleDoc _ => ""
  | .xlsxDoc _ => ""

/-- A dynamically typed Python value flowing through the module: either a
    JSON-compatible value (str, int, dict, list, ...) or a pandas frame. -/
inductive Content where
  | val (j : JsonVal)
  | frame (f : Frame)
  deriving DecidableEq

instance : Inhabited JsonVal := ⟨.null⟩

instance : Inhabited Content := ⟨.val .null⟩

instance : Inhabited Frame := ⟨⟨[], []⟩⟩

instance : Inhabited Bytes := ⟨.text ""⟩

def Content.isVal : Content → Bool
  | .val _ => true
  | .frame _ => false

def Content.isStrVal : Content → Bool
  | .val (.str _) => true
  | _ => false

/-- The exception classes the code distinguishes. All of them are
    subclasses of Exception in Python, so a bare except Exception clause
    catches every one of them. -/
inductive Exc where
  | fileNotFound
  | jsonDecodeError
  | valueError
  | typeError
  | isADirectoryError
  | notADirectoryError
  deriving DecidableEq

/-- json.loads / json.load: inverts json.dumps; anything else fails to
    decode. -/
def jsonLoads : Bytes → Except Exc JsonVal
  | .jsonDoc j _ => .ok j
  | _ => .error .jsonDecodeError

/-- Association lookup of a path among the files. -/
def lookupBytes : List (Str × Bytes) → Str → Option Bytes
  | [], _ => none
  | (q, b) :: rest, p => if q = p then some b else lookupBytes rest p

/-- Create or overwrite a file entry, keeping its position when it
    already exists. -/
def putFile : List (Str × Bytes) → Str → Bytes → List (Str × Bytes)
  | [], p, b => [(p, b)]
  | (q, c) :: rest, p, b =>
      if q = p then (p, b) :: rest else (q, c) :: putFile rest p b

/-- The name under which path p appears as a direct child of directory d:
    some n when p = d ++ / ++ n with n nonempty and slash-free. -/
def entryName (d p : Str) : Option Str :=
  if (d ++ ['/']).isPrefixOf p then
    let n := p.drop (d.length + 1)
    if n = [] ∨ '/' ∈ n then none else some n
  else none

/-- The filesystem: directory paths and regular files with contents. -/
structure FS where
  dirs : List Str
  files : List (Str × Bytes)
  deriving DecidableEq

/-- os.path.isdir. -/
def FS.isdir (fs : FS) (p : Str) : Bool := fs.dirs.any (fun d => decide (d = p))

/-- os.path.isfile, and the existence test used for files. -/
def FS.isfile (fs : FS) (p : Str) : Bool := (lookupBytes fs.files p).isSome

/-- os.path.exists. -/
def FS.pathExists (fs : FS) (p : Str) : Bool := fs.isdir p || fs.isfile p

/-- os.listdir on an existing directory: the direct children, files first,
    in storage order (os.listdir order is unspecified). -/
def FS.listdir (fs : FS) (d : Str) : List Str :=
  (fs.files.map (fun e => e.1) ++ fs.dirs).filterMap (fun p => entryName d p)

/-- open(p, "r"): a directory cannot be opened, a missing path raises
    FileNotFoundError. -/
def FS.openRead (fs : FS) (p : Str) : Except Exc Bytes :=
  if fs.isdir p then .error .isADirectoryError
  else
    match lookupBytes fs.files p with
    | some b => .ok b
    | none => .error .fileNotFound

/-- Whether the parent of p is an existing directory: either p is a bare
    name resolved in the working directory, or p is a direct child of some
    directory of the filesystem. -/
def FS.parentOk (fs : FS) (p : Str) : Bool :=
  decide ('/' ∉ p) || fs.dirs.any (fun d => (entryName d p).isSome)

/-- open(p, "w"): truncates or creates the file; fails when p is a
    directory or its parent is not an existing directory. -/
def FS.writeBytes (fs : FS) (p : Str) (b : Bytes) : Except Exc FS :=
  if fs.isdir p then .error .isADirectoryError
  else if fs.parentOk p then .ok ⟨fs.dirs, putFile fs.files p b⟩
  else .error .notADirectoryError

/-- The ancestor paths os.makedirs(p) creates: one for every slash
    position of p, plus p itself. -/
def pathPrefixes (p : Str) : List Str :=
  ((List.range p.length).filterMap
    (fun i => if p.get? i = some '/' then some (p.take i) else none)) ++ [p]

/-- os.makedirs(p): creates every missing ancestor, failing when some
    ancestor exists as a regular file. -/
def FS.makedirs (fs : FS) (p : Str) : Except Exc FS :=
  if (pathPrefixes p).any (fun q => fs.isfile q) then .error .notADirectoryError
  else .ok ⟨fs.dirs ++ (pathPrefixes p).filter (fun q => !(fs.isdir q)), fs.files⟩

/-- The dtype tags dispatched to the tabular codec. -/
def dataframeTags : List Str := ["csv".data, "xlsx".data, "pickle".data]

namespace IOFiles

/-- The shape of a try block around one write that ends in a bare
    except Exception clause: a failed write is swallowed, leaving the
    state it started from. -/
def writeCaught (fs : FS) (r : Except Exc FS) : Except Exc FS :=
  match r with
  | .ok fs' => .ok fs'
  | .error _ => .ok fs

/-- IOFiles.read_file: reads a file as text; except FileNotFoundError and
    except Exception together swallow every failure, returning the empty
    string. -/
def read_file (fs : FS) (p : Str) : Except Exc String :=
  match fs.openRead p with
  | .ok b => .ok b.asText
  | .error _ => .ok ""

/-- IOFiles.write_file: open(p, "w") truncates or creates the file, then
    file.write(data) requires a str; except Exception swallows every
    failure. -/
def write_file (fs : FS) (p : Str) (data : Content) : Except Exc FS :=
  match fs.writeBytes p (.text "") with
  | .error _ => .ok fs
  | .ok fsOpened =>
    match data with
    | .val (.str s) => writeCaught fsOpened (fsOpened.writeBytes p (.text s))
    | _ => .ok fsOpened

/-- IOFiles.read_file_async: same handling as read_file, through
    aiofiles. -/
def read_file_async (fs : FS) (p : Str) : Except Exc String := read_file fs p

/-- IOFiles.write_file_async: same handling as write_file, through
    aiofiles. -/
def write_file_async (fs : FS) (p : Str) (data : Content) : Except Exc FS :=
  write_file fs p data

/-- The parse step of IOFiles.read_json and read_json_async: a decode
    failure is caught, yielding the empty mapping; any other exception of
    the parse step would not be. -/
def jsonLoadsCaught (b : Bytes) : Except Exc JsonVal :=
  match jsonLoads b with
  | .ok j => .ok j
  | .error .jsonDecodeError => .ok (.obj .nil)
  | .error e => .error e

/-- IOFiles.read_json: only FileNotFoundError and json.JSONDecodeError are
    caught (yielding the empty mapping); any other exception, such as
    IsADirectoryError, propagates. -/
def read_json (fs : FS) (p : Str) : Except Exc JsonVal :=
  match fs.openRead p with
  | .error .fileNotFound => .ok (.obj .nil)
  | .error e => .error e
  | .ok b => jsonLoadsCaught b

/-- The open-and-dump part of IOFiles.write_json, at the exact path:
    opens and truncates, then json.dump; a non-serializable value raises
    TypeError before any content is produced; except Exception swallows
    every failure. -/
def write_json_at (fs : FS) (p : Str) (data : Content) (indent : Nat) :
    Except Exc FS :=
  match fs.writeBytes p (.text "") with
  | .error _ => .ok fs
  | .ok fsOpened =>
    match data with
    | .val j => writeCaught fsOpened (fsOpened.writeBytes p (.jsonDoc j indent))
    | .frame _ => .ok fsOpened

/-- IOFiles.write_json: appends .json when the path lacks it, then opens
    and dumps. -/
def write_json (fs : FS) (p : Str) (data : Content) (indent : Nat) :
    Except Exc FS :=
  write_json_at fs (if pyEndsWith p (".json".data) then p else p ++ ".json".data)
    data indent

/-- IOFiles.read_json_async: same handling as read_json, through
    aiofiles. -/
def read_json_async (fs : FS) (p : Str) : Except Exc JsonVal := read_json fs p

/-- IOFiles.write_json_async: same handling as write_json, through
    aiofiles. -/
def write_json_async (fs : FS) (p : Str) (data : Content) (indent : Nat) :
    Except Exc FS :=
  write_json fs p data indent

/-- The try body of IOFiles.read_df: dispatch on the dtype tag, raising
    ValueError on an unrecognized tag before touching any file. -/
def read_df_body (fs : FS) (p : Str) (dtype : Str) : Except Exc Frame :=
  if dtype = "csv".data then
    match fs.openRead p with
    | .ok (.csvDoc f) => .ok f
    | .ok b => .ok (parseCsv b.asText)
    | .error e => .error e
  else if dtype = "pickle".data then
    match fs.openRead p with
    | .ok (.pickleDoc f) => .ok f
    | .ok _ => .error .valueError
    | .error e => .error e
  else if dtype = "xlsx".data then
    match fs.openRead p with
    | .ok (.xlsxDoc f) => .ok f
    | .ok _ => .error .valueError
    | .error e => .error e
  else .error .valueError

/-- IOFiles.read_df: except FileNotFoundError and except Exception
    together swallow every failure of the body, returning an empty
    frame. -/
def read_df (fs : FS) (p : Str) (dtype : Str) : Except Exc Frame :=
  match read_df_body fs p dtype with
  | .ok f => .ok f
  | .error _ => .ok emptyFrame

/-- IOFiles.write_df: data.to_csv / to_pickle / to_excel need a frame
    (anything else raises before opening the file); an unrecognized tag
    raises ValueError; except Exception swallows every failure. -/
def write_df (fs : FS) (p : Str) (data : Content) (dtype : Str) :
    Except Exc FS :=
  match data with
  | .frame f =>
    if dtype = "csv".data then writeCaught fs (fs.writeBytes p (.csvDoc f))
    else if dtype = "pickle".data then
      writeCaught fs (fs.writeBytes p (.pickleDoc f))
    else if dtype = "xlsx".data then
      writeCaught fs (fs.writeBytes p (.xlsxDoc f))
    else .ok fs
  | .val _ => .ok fs

/-- Python dict insertion: an existing key keeps its position and takes
    the new value, a new key is appended. -/
def dictInsert (m : List (Str × Content)) (k : Str) (v : Content) :
    List (Str × Content) :=
  if m.any (fun kv => decide (kv.1 = k)) then
    m.map (fun kv => if kv.1 = k then (k, v) else kv)
  else m ++ [(k, v)]

/-- The per-file dispatch of IOFiles.read_dir_contents. -/
def readEntry (fs : FS) (path file dtype : Str) : Except Exc Content :=
  if dtype = "json".data then
    (read_json fs (pjoin path file)).map Content.val
  else if dtype ∈ dataframeTags then
    (read_df fs (pjoin path file) dtype).map Content.frame
  else
    (read_file fs (pjoin path file)).map (fun s => Content.val (.str s))

/-- The for loop of IOFiles.read_dir_contents over the directory
    listing. -/
def readDirLoop (fs : FS) (path dtype : Str) :
    List Str → List (Str × Content) → Except Exc (List (Str × Content))
  | [], acc => .ok acc
  | file :: rest, acc =>
    if pyEndsWith file dtype then
      match readEntry fs path file dtype with
      | .error e => .error e
      | .ok v =>
        readDirLoop fs path dtype rest
          (dictInsert acc (pyReplace file ('.' :: dtype) []) v)
    else readDirLoop fs path dtype rest acc

/-- IOFiles.read_dir_contents. -/
def read_dir_contents (fs : FS) (path : Str) (dtype : Str) :
    Except Exc (List (Str × Content)) :=
  if fs.pathExists path && fs.isdir path then
    readDirLoop fs path dtype (fs.listdir path) []
  else .ok []

/-- The ident-recording and task-building loop of
    IOFiles.read_dir_contents_async: one entry per matching file, the
    ident paired with the read task for that file. Tasks only read, so a
    task is the value it will produce or the exception it will raise. -/
def collectAsync (fs : FS) (path dtype : Str) :
    List Str → List (Str × Except Exc Content)
  | [] => []
  | file :: rest =>
    if pyEndsWith file dtype then
      (if dtype ≠ "all".data then pyReplace file ('.' :: dtype) [] else file,
       if dtype = "json".data then
         (read_json_async fs (pjoin path file)).map Content.val
       else
         (read_file_async fs (pjoin path file)).map
           (fun s => Content.val (.str s))) :: collectAsync fs path dtype rest
    else collectAsync fs path dtype rest

/-- asyncio.gather over read tasks: all tasks run to completion; with
    return_exceptions left False, a raised exception propagates to the
    awaiter (which of several raised exceptions wins depends on
    scheduling; the model takes the first in task order, and no verified
    property depends on the choice). -/
def gather : List (Except Exc Content) → Except Exc (List Content)
  | [] => .ok []
  | t :: ts =>
    match t with
    | .error e => .error e
    | .ok v => (gather ts).map (fun vs => v :: vs)

/-- The dict comprehension zipping idents against gathered results. -/
def dictOfPairs : List (Str × Content) → List (Str × Content) → List (Str × Content)
  | acc, [] => acc
  | acc, (k, v) :: rest => dictOfPairs (dictInsert acc k v) rest

/-- IOFiles.read_dir_contents_async. -/
def read_dir_contents_async (fs : FS) (path : Str) (dtype : Str) :
    Except Exc (List (Str × Content)) :=
  let pairs :=
    if fs.pathExists path && fs.isdir path then
      collectAsync fs path dtype (fs.listdir path)
    else []
  match gather (pairs.map (fun it => it.2)) with
  | .error e => .error e
  | .ok results => .ok (dictOfPairs [] ((pairs.map (fun it => it.1)).zip results))

/-- The per-entry loop of IOFiles.write_contents_to_dir. -/
def writeDirLoop (path dtype : Str) :
    FS → List (Str × Content) → Except Exc FS
  | fs, [] => .ok fs
  | fs, (ident, content) :: rest =>
    match (if dtype = "json".data then
             write_json fs (pjoin path (ident ++ '.' :: dtype)) content 4
           else if dtype ∈ dataframeTags then
             write_df fs (pjoin path (ident ++ '.' :: dtype)) content dtype
           else
             write_file fs (pjoin path (ident ++ '.' :: dtype)) content) with
    | .error e => .error e
    | .ok fs' => writeDirLoop path dtype fs' rest

/-- IOFiles.write_contents_to_dir. -/
def write_contents_to_dir (fs : FS) (path : Str)
    (contents : List (Str × Content)) (dtype : Str) : Except Exc FS :=
  match (if fs.pathExists path = false then fs.makedirs path else .ok fs) with
  | .error e => .error e
  | .ok fs1 => writeDirLoop path dtype fs1 contents

/-- The per-entry task loop of IOFiles.write_contents_to_dir_async.
    The gathered write tasks touch pairwise distinct paths when the idents
    are distinct; the model runs them in task order. -/
def writeDirLoopAsync (path dtype : Str) :
    FS → List (Str × Content) → Except Exc FS
  | fs, [] => .ok fs
  | fs, (ident, content) :: rest =>
    match (if dtype = "json".data then
             write_json_async fs (pjoin path (ident ++ '.' :: dtype)) content 4
           else
             write_file_async fs (pjoin path (ident ++ '.' :: dtype)) content) with
    | .error e => .error e
    | .ok fs' => writeDirLoopAsync path dtype fs' rest

/-- IOFiles.write_contents_to_dir_async. -/
def write_contents_to_dir_async (fs : FS) (path : Str)
    (contents : List (Str × Content)) (dtype : Str) : Except Exc FS :=
  match (if fs.pathExists path = false then fs.makedirs path else .ok fs) with
  | .error e => .error e
  | .ok fs1 => writeDirLoopAsync path dtype fs1 contents

end IOFiles

/-- The bytes the directory writer leaves on disk for one entry, for the
    non-tabular dtype tags: a JSON document under the json tag, raw text
    otherwise. -/
def entryBytes (dtype : Str) : Content → Bytes
  | .val (.str s) => if dtype = "json".data then .jsonDoc (.str s) 4 else .text s
  | .val j => .jsonDoc j 4
  | .frame _ => .text ""

/-- The file entries the directory writer appends for a list of
    contents. -/
def entriesBytes (path dtype : Str) (l : List (Str × Content)) :
    List (Str × Bytes) :=
  l.map (fun iv => (pjoin path (iv.1 ++ '.' :: dtype), entryBytes dtype iv.2))

/-- An identifier that survives the suffix round trip: it contains no
    path separator, and the dtype pattern occurs in ident ++ pattern only
    as the trailing suffix. -/
def identOk (dtype ident : Str) : Prop :=
  '/' ∉ ident ∧ onlyTrailing ('.' :: dtype) ident = true

instance (dtype ident : Str) : Decidable (identOk dtype ident) := by
  unfold identOk
  infer_instance

/-- A target directory path that is absent, creatable, and has nothing of
    the filesystem beneath it. -/
def freshTarget (fs : FS) (path : Str) : Prop :=
  fs.pathExists path = false ∧
  (∀ q ∈ pathPrefixes path, fs.isfile q = false) ∧
  (∀ p ∈ fs.files.map (fun e => e.1) ++ fs.dirs,
    (path ++ ['/']).isPrefixOf p = false)

/- ------------------------------------------------------------------ -/
/- Lemmas about the string and list primitives.                       -/
/- ------------------------------------------------------------------ -/

lemma myPrefix_iff : ∀ (pre s : Str), pre.isPrefixOf s = true ↔ ∃ t, s = pre ++ t := by
  intro pre
  induction pre with
  | nil =>
    intro s
    simp only [List.isPrefixOf, List.nil_append]
    exact ⟨fun _ => ⟨s, rfl⟩, fun _ => trivial⟩
  | cons x xs ih =>
    intro s
    cases s with
    | nil =>
      simp [List.isPrefixOf]
    | cons y ys =>
      simp only [List.isPrefixOf, Bool.and_eq_true, beq_iff_eq, ih,
        List.cons_append, List.cons.injEq]
      constructor
      · rintro ⟨rfl, t, rfl⟩
        exact ⟨t, rfl, rfl⟩
      · rintro ⟨t, rfl, rfl⟩
        exact ⟨rfl, t, rfl⟩

lemma isPrefixOf_append_self (pre t : Str) : pre.isPrefixOf (pre ++ t) = true :=
  (myPrefix_iff pre (pre ++ t)).mpr ⟨t, rfl⟩

lemma isPrefixOf_self (l : Str) : l.isPrefixOf l = true :=
  (myPrefix_iff l l).mpr ⟨[], by simp⟩

lemma length_le_of_isPrefixOf {pre s : Str} (h : pre.isPrefixOf s = true) :
    pre.length ≤ s.length := by
  obtain ⟨t, rfl⟩ := (myPrefix_iff pre s).mp h
  simp

lemma mySuffix_iff (t s : Str) : t.isSuffixOf s = true ↔ ∃ u, s = u ++ t := by
  simp only [List.isSuffixOf]
  rw [myPrefix_iff]
  constructor
  · rintro ⟨u, hu⟩
    refine ⟨u.reverse, ?_⟩
    have h2 := congrArg List.reverse hu
    simpa [List.reverse_append] using h2
  · rintro ⟨u, rfl⟩
    exact ⟨u.reverse, by simp [List.reverse_append]⟩

lemma isPrefixOf_total : ∀ (c a b : Str), a.isPrefixOf c = true →
    b.isPrefixOf c = true → a.isPrefixOf b = true ∨ b.isPrefixOf a = true := by
  intro c
  induction c with
  | nil =>
    intro a b ha hb
    cases a <;> cases b <;> simp_all [List.isPrefixOf]
  | cons z zs ih =>
    intro a b ha hb
    cases a with
    | nil => left; simp [List.isPrefixOf]
    | cons x xs =>
      cases b with
      | nil => right; simp [List.isPrefixOf]
      | cons y ys =>
        simp only [List.isPrefixOf, Bool.and_eq_true, beq_iff_eq] at ha hb ⊢
        obtain ⟨rfl, ha'⟩ := ha
        obtain ⟨rfl, hb'⟩ := hb
        rcases ih xs ys ha' hb' with h | h
        · exact Or.inl ⟨rfl, h⟩
        · exact Or.inr ⟨rfl, h⟩

lemma replaceFuel_nil (pat repl : Str) : ∀ fuel, replaceFuel pat repl fuel [] = [] := by
  intro fuel
  cases fuel <;> rfl

lemma replaceFuel_trailing (pat : Str) (hp : pat ≠ []) :
    ∀ (ident : Str) (fuel : Nat), (ident ++ pat).length ≤ fuel →
      onlyTrailing pat ident = true →
      replaceFuel pat [] fuel (ident ++ pat) = ident := by
  intro ident
  induction ident with
  | nil =>
    intro fuel hf _
    cases pat with
    | nil => exact absurd rfl hp
    | cons p ps =>
      cases fuel with
      | zero => simp at hf
      | succ f =>
        show replaceFuel (p :: ps) [] (f + 1) ([] ++ (p :: ps)) = []
        rw [List.nil_append, replaceFuel,
          if_pos ⟨hp, isPrefixOf_self (p :: ps)⟩, List.drop_length,
          replaceFuel_nil, List.append_nil]
  | cons c cs ih =>
    intro fuel hf ht
    simp only [onlyTrailing, Bool.and_eq_true, Bool.not_eq_true'] at ht
    cases fuel with
    | zero => simp at hf
    | succ f =>
      show replaceFuel pat [] (f + 1) (c :: (cs ++ pat)) = c :: cs
      rw [replaceFuel, if_neg]
      · have hf' : (cs ++ pat).length ≤ f := by
          simp only [List.length_append, List.length_cons] at hf ⊢
          omega
        rw [ih f hf' ht.2]
      · rintro ⟨_, hpre⟩
        rw [show c :: (cs ++ pat) = (c :: cs) ++ pat from rfl, ht.1] at hpre
        cases hpre

lemma pyReplace_trailing (pat ident : Str) (hp : pat ≠ [])
    (ht : onlyTrailing pat ident = true) :
    pyReplace (ident ++ pat) pat [] = ident :=
  replaceFuel_trailing pat hp ident _ le_rfl ht

lemma pyEndsWith_append (u t : Str) : pyEndsWith (u ++ t) t = true :=
  (mySuffix_iff t (u ++ t)).mpr ⟨u, rfl⟩

/- ------------------------------------------------------------------ -/
/- Lemmas about the filesystem primitives.                            -/
/- ------------------------------------------------------------------ -/

lemma pjoin_decompose (d n : Str) : pjoin d n = (d ++ ['/']) ++ n := by
  simp [pjoin]

lemma slash_mem_pjoin (d n : Str) : '/' ∈ pjoin d n := by
  simp [pjoin]

lemma entryName_pjoin (d n : Str) (hn : '/' ∉ n) (hne : n ≠ []) :
    entryName d (pjoin d n) = some n := by
  have hd : ((d ++ ['/']) ++ n).drop (d.length + 1) = n := by
    rw [show d.length + 1 = (d ++ ['/']).length by simp, List.drop_left]
  simp [entryName, pjoin_decompose, isPrefixOf_append_self, hd, hne, hn]

lemma entryName_none {d p : Str} (h : (d ++ ['/']).isPrefixOf p = false) :
    entryName d p = none := by
  simp [entryName, h]

lemma entryName_some {d p n : Str} (h : entryName d p = some n) :
    p = pjoin d n ∧ '/' ∉ n ∧ n ≠ [] := by
  cases hpre : (d ++ ['/']).isPrefixOf p with
  | false => rw [entryName_none hpre] at h; cases h
  | true =>
    obtain ⟨t, rfl⟩ := (myPrefix_iff _ _).mp hpre
    have hd : ((d ++ ['/']) ++ t).drop (d.length + 1) = t := by
      rw [show d.length + 1 = (d ++ ['/']).length by simp, List.drop_left]
    simp only [entryName, hpre, if_true, hd] at h
    by_cases hc : t = [] ∨ '/' ∈ t
    · rw [if_pos hc] at h; cases h
    · rw [if_neg hc] at h
      injection h with h2
      subst h2
      push_neg at hc
      exact ⟨(pjoin_decompose d t).symm, hc.2, hc.1⟩

lemma mem_pathPrefixes_self (p : Str) : p ∈ pathPrefixes p := by
  simp [pathPrefixes]

lemma length_le_of_mem_pathPrefixes {q p : Str} (h : q ∈ pathPrefixes p) :
    q.length ≤ p.length := by
  simp only [pathPrefixes, List.mem_append, List.mem_filterMap, List.mem_range,
    List.mem_singleton] at h
  rcases h with ⟨i, _, hq⟩ | rfl
  · by_cases hc : p.get? i = some '/'
    · rw [if_pos hc] at hq
      injection hq with hq2
      rw [← hq2]
      simp
    · rw [if_neg hc] at hq; cases hq
  · exact le_rfl

lemma pathPrefixes_no_descent {q p : Str} (h : q ∈ pathPrefixes p) :
    (p ++ ['/']).isPrefixOf q = false := by
  cases hc : (p ++ ['/']).isPrefixOf q with
  | false => rfl
  | true =>
    have h1 := length_le_of_isPrefixOf hc
    have h2 := length_le_of_mem_pathPrefixes h
    simp only [List.length_append, List.length_singleton] at h1
    omega

lemma putFile_notMem : ∀ (l : List (Str × Bytes)) (p : Str) (b : Bytes),
    (∀ e ∈ l, e.1 ≠ p) → putFile l p b = l ++ [(p, b)] := by
  intro l p b h
  induction l with
  | nil => rfl
  | cons e rest ih =>
    obtain ⟨q, c⟩ := e
    have hq : q ≠ p := h (q, c) (by simp)
    simp only [putFile, if_neg hq, List.cons_append, List.cons.injEq, true_and]
    exact ih (fun e he => h e (by simp [he]))

lemma putFile_last : ∀ (l : List (Str × Bytes)) (p : Str) (b b' : Bytes),
    (∀ e ∈ l, e.1 ≠ p) → putFile (l ++ [(p, b)]) p b' = l ++ [(p, b')] := by
  intro l p b b' h
  induction l with
  | nil => simp [putFile]
  | cons e rest ih =>
    obtain ⟨q, c⟩ := e
    have hq : q ≠ p := h (q, c) (by simp)
    simp only [List.cons_append, putFile, if_neg hq, List.cons.injEq, true_and]
    exact ih (fun e he => h e (by simp [he]))

lemma mem_putFile : ∀ (l : List (Str × Bytes)) (p : Str) (b : Bytes) (e : Str × Bytes),
    e ∈ putFile l p b → e ∈ l ∨ e = (p, b) := by
  intro l p b e h
  induction l with
  | nil =>
    simp only [putFile, List.mem_singleton] at h
    exact Or.inr h
  | cons f rest ih =>
    obtain ⟨q, c⟩ := f
    by_cases hq : q = p
    · rw [show putFile ((q, c) :: rest) p b = (p, b) :: rest by simp [putFile, hq]] at h
      rcases List.mem_cons.mp h with rfl | h2
      · exact Or.inr rfl
      · exact Or.inl (List.mem_cons_of_mem _ h2)
    · rw [show putFile ((q, c) :: rest) p b = (q, c) :: putFile rest p b by
        simp [putFile, hq]] at h
      rcases List.mem_cons.mp h with rfl | h2
      · exact Or.inl (List.mem_cons_self _ _)
      · rcases ih h2 with h3 | h3
        · exact Or.inl (List.mem_cons_of_mem _ h3)
        · exact Or.inr h3

lemma lookupBytes_append_left_none :
    ∀ (l₁ l₂ : List (Str × Bytes)) (p : Str),
      (∀ e ∈ l₁, e.1 ≠ p) → lookupBytes (l₁ ++ l₂) p = lookupBytes l₂ p := by
  intro l₁ l₂ p h
  induction l₁ with
  | nil => rfl
  | cons e rest ih =>
    obtain ⟨q, c⟩ := e
    have hq : q ≠ p := h (q, c) (by simp)
    simp only [List.cons_append, lookupBytes, if_neg hq]
    exact ih (fun e he => h e (by simp [he]))

lemma lookupBytes_none : ∀ (l : List (Str × Bytes)) (p : Str),
    (∀ e ∈ l, e.1 ≠ p) → lookupBytes l p = none := by
  intro l p h
  have h2 := lookupBytes_append_left_none l [] p h
  simpa using h2

/- ------------------------------------------------------------------ -/
/- Lemmas about the filesystem operations.                            -/
/- ------------------------------------------------------------------ -/

lemma writeBytes_ok_eq {fs : FS} {p : Str} {b : Bytes} {fs' : FS}
    (h : fs.writeBytes p b = .ok fs') : fs' = ⟨fs.dirs, putFile fs.files p b⟩ := by
  simp only [FS.writeBytes] at h
  split at h
  · cases h
  · split at h
    · injection h with h2
      exact h2.symm
    · cases h

lemma writeBytes_pos {fs : FS} {p : Str} (hd : fs.isdir p = false)
    (hpar : fs.parentOk p = true) (b : Bytes) :
    fs.writeBytes p b = .ok ⟨fs.dirs, putFile fs.files p b⟩ := by
  simp [FS.writeBytes, hd, hpar]

lemma openRead_error_classes {fs : FS} {p : Str} {e : Exc}
    (h : fs.openRead p = .error e) :
    e = .fileNotFound ∨ e = .isADirectoryError := by
  simp only [FS.openRead] at h
  split at h
  · injection h with h2
    exact Or.inr h2.symm
  · split at h
    · cases h
    · injection h with h2
      exact Or.inl h2.symm

lemma isdir_eq_false_of_not_exists {fs : FS} {p : Str}
    (h : fs.pathExists p = false) : fs.isdir p = false := by
  cases hc : fs.isdir p
  · rfl
  · rw [FS.pathExists, hc] at h
    simp at h

lemma isfile_eq_false_of_not_exists {fs : FS} {p : Str}
    (h : fs.pathExists p = false) : fs.isfile p = false := by
  cases hc : fs.isfile p
  · rfl
  · rw [FS.pathExists, hc] at h
    simp at h

lemma lookupBytes_eq_none_of_isfile_false {fs : FS} {p : Str}
    (h : fs.isfile p = false) : lookupBytes fs.files p = none := by
  rw [FS.isfile] at h
  cases hc : lookupBytes fs.files p
  · rfl
  · rw [hc] at h
    simp at h

lemma openRead_not_exists {fs : FS} {p : Str} (h : fs.pathExists p = false) :
    fs.openRead p = .error .fileNotFound := by
  have hd := isdir_eq_false_of_not_exists h
  have hl := lookupBytes_eq_none_of_isfile_false (isfile_eq_false_of_not_exists h)
  simp [FS.openRead, hd, hl]

lemma jsonLoads_error {b : Bytes} {e : Exc} (h : jsonLoads b = .error e) :
    e = .jsonDecodeError := by
  cases b with
  | text s => exact (Except.error.inj h).symm
  | jsonDoc j i => exact Except.noConfusion h
  | csvDoc f => exact (Except.error.inj h).symm
  | pickleDoc f => exact (Except.error.inj h).symm
  | xlsxDoc f => exact (Except.error.inj h).symm

/- ------------------------------------------------------------------ -/
/- Total exception handling of the per-file operations.               -/
/- ------------------------------------------------------------------ -/

lemma read_file_ok (fs : FS) (p : Str) : ∃ s, IOFiles.read_file fs p = .ok s := by
  unfold IOFiles.read_file
  cases h : fs.openRead p with
  | ok b => exact ⟨b.asText, rfl⟩
  | error e => exact ⟨"", rfl⟩

lemma read_df_ok (fs : FS) (p dt : Str) : ∃ f, IOFiles.read_df fs p dt = .ok f := by
  unfold IOFiles.read_df
  cases h : IOFiles.read_df_body fs p dt with
  | ok f => exact ⟨f, rfl⟩
  | error e => exact ⟨emptyFrame, rfl⟩

lemma writeCaught_ok {fs : FS} {r : Except Exc FS}
    (hr : ∀ fs₂, r = .ok fs₂ → fs₂.dirs = fs.dirs) :
    ∃ fs', IOFiles.writeCaught fs r = .ok fs' ∧ fs'.dirs = fs.dirs := by
  cases r with
  | ok fs2 => exact ⟨fs2, rfl, hr fs2 rfl⟩
  | error e => exact ⟨fs, rfl, rfl⟩

lemma write_file_ok (fs : FS) (p : Str) (d : Content) :
    ∃ fs', IOFiles.write_file fs p d = .ok fs' ∧ fs'.dirs = fs.dirs := by
  unfold IOFiles.write_file
  cases h1 : fs.writeBytes p (.text "") with
  | error e => exact ⟨fs, rfl, rfl⟩
  | ok fsO =>
    have hd1 : fsO.dirs = fs.dirs := by rw [writeBytes_ok_eq h1]
    cases d with
    | frame f => exact ⟨fsO, rfl, hd1⟩
    | val j =>
      cases j with
      | str s =>
        obtain ⟨fs2, heq, hd2⟩ :=
          @writeCaught_ok fsO (fsO.writeBytes p (.text s))
            (fun fs₂ h => by rw [writeBytes_ok_eq h])
        exact ⟨fs2, heq, hd2.trans hd1⟩
      | null => exact ⟨fsO, rfl, hd1⟩
      | bool b => exact ⟨fsO, rfl, hd1⟩
      | num n => exact ⟨fsO, rfl, hd1⟩
      | arr es => exact ⟨fsO, rfl, hd1⟩
      | obj fl => exact ⟨fsO, rfl, hd1⟩

lemma write_json_at_ok (fs : FS) (p : Str) (d : Content) (i : Nat) :
    ∃ fs', IOFiles.write_json_at fs p d i = .ok fs' ∧ fs'.dirs = fs.dirs := by
  unfold IOFiles.write_json_at
  cases h1 : fs.writeBytes p (.text "") with
  | error e => exact ⟨fs, rfl, rfl⟩
  | ok fsO =>
    have hd1 : fsO.dirs = fs.dirs := by rw [writeBytes_ok_eq h1]
    cases d with
    | frame f => exact ⟨fsO, rfl, hd1⟩
    | val j =>
      obtain ⟨fs2, heq, hd2⟩ :=
        @writeCaught_ok fsO (fsO.writeBytes p (.jsonDoc j i))
          (fun fs₂ h => by rw [writeBytes_ok_eq h])
      exact ⟨fs2, heq, hd2.trans hd1⟩

lemma write_json_ok (fs : FS) (p : Str) (d : Content) (i : Nat) :
    ∃ fs', IOFiles.write_json fs p d i = .ok fs' ∧ fs'.dirs = fs.dirs := by
  unfold IOFiles.write_json
  exact write_json_at_ok fs _ d i

lemma write_df_ok (fs : FS) (p : Str) (d : Content) (dt : Str) :
    ∃ fs', IOFiles.write_df fs p d dt = .ok fs' ∧ fs'.dirs = fs.dirs := by
  unfold IOFiles.write_df
  cases d with
  | val j => exact ⟨fs, rfl, rfl⟩
  | frame f =>
    by_cases h1 : dt = "csv".data
    · simp only [if_pos h1]
      exact writeCaught_ok (fun fs₂ h => by rw [writeBytes_ok_eq h])
    · by_cases h2 : dt = "pickle".data
      · simp only [if_neg h1, if_pos h2]
        exact writeCaught_ok (fun fs₂ h => by rw [writeBytes_ok_eq h])
      · by_cases h3 : dt = "xlsx".data
        · simp only [if_neg h1, if_neg h2, if_pos h3]
          exact writeCaught_ok (fun fs₂ h => by rw [writeBytes_ok_eq h])
        · simp only [if_neg h1, if_neg h2, if_neg h3]
          exact ⟨fs, rfl, rfl⟩

lemma read_json_error_isdir {fs : FS} {p : Str} {e : Exc}
    (h : IOFiles.read_json fs p = .error e) : e = .isADirectoryError := by
  unfold IOFiles.read_json at h
  cases ho : fs.openRead p with
  | error e' =>
    rw [ho] at h
    rcases openRead_error_classes ho with rfl | rfl
    · exact Except.noConfusion h
    · exact (Except.error.inj h).symm
  | ok b =>
    rw [ho] at h
    have h2 : IOFiles.jsonLoadsCaught b = .error e := h
    unfold IOFiles.jsonLoadsCaught at h2
    cases hl : jsonLoads b with
    | ok j =>
      rw [hl] at h2
      exact Except.noConfusion h2
    | error e'' =>
      have he'' := jsonLoads_error hl
      subst he''
      rw [hl] at h2
      exact Except.noConfusion h2

lemma write_file_async_ok (fs : FS) (p : Str) (d : Content) :
    ∃ fs', IOFiles.write_file_async fs p d = .ok fs' ∧ fs'.dirs = fs.dirs := by
  unfold IOFiles.write_file_async
  exact write_file_ok fs p d

lemma write_json_async_ok (fs : FS) (p : Str) (d : Content) (i : Nat) :
    ∃ fs', IOFiles.write_json_async fs p d i = .ok fs' ∧ fs'.dirs = fs.dirs := by
  unfold IOFiles.write_json_async
  exact write_json_ok fs p d i

lemma writeDirLoop_ok (path dtype : Str) :
    ∀ (todo : List (Str × Content)) (fs : FS),
      ∃ fs', IOFiles.writeDirLoop path dtype fs todo = .ok fs' ∧
        fs'.dirs = fs.dirs := by
  intro todo
  induction todo with
  | nil => intro fs; exact ⟨fs, rfl, rfl⟩
  | cons e rest ih =>
    intro fs
    obtain ⟨ident, c⟩ := e
    unfold IOFiles.writeDirLoop
    by_cases h1 : dtype = "json".data
    · simp only [if_pos h1]
      obtain ⟨fs1, heq, hd⟩ := write_json_ok fs (pjoin path (ident ++ '.' :: dtype)) c 4
      rw [heq]
      obtain ⟨fs2, heq2, hd2⟩ := ih fs1
      exact ⟨fs2, heq2, hd2.trans hd⟩
    · by_cases h2 : dtype ∈ dataframeTags
      · simp only [if_neg h1, if_pos h2]
        obtain ⟨fs1, heq, hd⟩ :=
          write_df_ok fs (pjoin path (ident ++ '.' :: dtype)) c dtype
        rw [heq]
        obtain ⟨fs2, heq2, hd2⟩ := ih fs1
        exact ⟨fs2, heq2, hd2.trans hd⟩
      · simp only [if_neg h1, if_neg h2]
        obtain ⟨fs1, heq, hd⟩ := write_file_ok fs (pjoin path (ident ++ '.' :: dtype)) c
        rw [heq]
        obtain ⟨fs2, heq2, hd2⟩ := ih fs1
        exact ⟨fs2, heq2, hd2.trans hd⟩

lemma writeDirLoopAsync_ok (path dtype : Str) :
    ∀ (todo : List (Str × Content)) (fs : FS),
      ∃ fs', IOFiles.writeDirLoopAsync path dtype fs todo = .ok fs' ∧
        fs'.dirs = fs.dirs := by
  intro todo
  induction todo with
  | nil => intro fs; exact ⟨fs, rfl, rfl⟩
  | cons e rest ih =>
    intro fs
    obtain ⟨ident, c⟩ := e
    unfold IOFiles.writeDirLoopAsync
    by_cases h1 : dtype = "json".data
    · simp only [if_pos h1]
      obtain ⟨fs1, heq, hd⟩ :=
        write_json_async_ok fs (pjoin path (ident ++ '.' :: dtype)) c 4
      rw [heq]
      obtain ⟨fs2, heq2, hd2⟩ := ih fs1
      exact ⟨fs2, heq2, hd2.trans hd⟩
    · simp only [if_neg h1]
      obtain ⟨fs1, heq, hd⟩ :=
        write_file_async_ok fs (pjoin path (ident ++ '.' :: dtype)) c
      rw [heq]
      obtain ⟨fs2, heq2, hd2⟩ := ih fs1
      exact ⟨fs2, heq2, hd2.trans hd⟩

/- ------------------------------------------------------------------ -/
/- Lemmas about the async task collection, gather, and dict building.  -/
/- ------------------------------------------------------------------ -/

lemma collectAsync_mem {fs : FS} {path dtype : Str} :
    ∀ {files : List Str} {pr : Str × Except Exc Content},
      pr ∈ IOFiles.collectAsync fs path dtype files →
      ∃ file ∈ files, pyEndsWith file dtype = true ∧
        pr.1 = (if dtype ≠ "all".data then pyReplace file ('.' :: dtype) []
                else file) ∧
        pr.2 = (if dtype = "json".data then
                  (IOFiles.read_json_async fs (pjoin path file)).map Content.val
                else
                  (IOFiles.read_file_async fs (pjoin path file)).map
                    (fun s => Content.val (.str s))) := by
  intro files
  induction files with
  | nil => intro pr h; cases h
  | cons file rest ih =>
    intro pr h
    unfold IOFiles.collectAsync at h
    by_cases he : pyEndsWith file dtype = true
    · rw [if_pos he] at h
      rcases List.mem_cons.mp h with rfl | h2
      · exact ⟨file, List.mem_cons_self _ _, he, rfl, rfl⟩
      · obtain ⟨f2, hf2, h3⟩ := ih h2
        exact ⟨f2, List.mem_cons_of_mem _ hf2, h3⟩
    · rw [if_neg he] at h
      obtain ⟨f2, hf2, h3⟩ := ih h
      exact ⟨f2, List.mem_cons_of_mem _ hf2, h3⟩

lemma gather_forall₂ : ∀ {ts : List (Except Exc Content)} {vs : List Content},
    IOFiles.gather ts = .ok vs →
    List.Forall₂ (fun t v => t = .ok v) ts vs := by
  intro ts
  induction ts with
  | nil =>
    intro vs h
    unfold IOFiles.gather at h
    injection h with h2
    rw [← h2]
    exact List.Forall₂.nil
  | cons t rest ih =>
    intro vs h
    unfold IOFiles.gather at h
    cases t with
    | error e => exact Except.noConfusion h
    | ok v =>
      cases hg : IOFiles.gather rest with
      | error e => rw [hg] at h; exact Except.noConfusion h
      | ok vs' =>
        rw [hg] at h
        injection h with h2
        rw [← h2]
        exact List.Forall₂.cons rfl (ih hg)

lemma gather_total : ∀ {ts : List (Except Exc Content)},
    (∀ t ∈ ts, ∃ v, t = .ok v) → ∃ vs, IOFiles.gather ts = .ok vs := by
  intro ts
  induction ts with
  | nil => intro _; exact ⟨[], rfl⟩
  | cons t rest ih =>
    intro h
    obtain ⟨v, rfl⟩ := h t (List.mem_cons_self _ _)
    obtain ⟨vs, hvs⟩ := ih (fun t ht => h t (List.mem_cons_of_mem _ ht))
    refine ⟨v :: vs, ?_⟩
    unfold IOFiles.gather
    rw [hvs]
    rfl

lemma mem_dictInsert_elim {m : List (Str × Content)} {k : Str} {v : Content}
    {kv : Str × Content} (h : kv ∈ IOFiles.dictInsert m k v) :
    kv ∈ m ∨ kv = (k, v) := by
  unfold IOFiles.dictInsert at h
  split at h
  · obtain ⟨p, hp, hpe⟩ := List.mem_map.mp h
    by_cases hc : p.1 = k
    · rw [if_pos hc] at hpe
      exact Or.inr hpe.symm
    · rw [if_neg hc] at hpe
      exact Or.inl (hpe ▸ hp)
  · rcases List.mem_append.mp h with h2 | h2
    · exact Or.inl h2
    · right
      simpa using h2

lemma key_mem_dictInsert (m : List (Str × Content)) (k : Str) (v : Content) :
    k ∈ (IOFiles.dictInsert m k v).map Prod.fst := by
  unfold IOFiles.dictInsert
  split
  · next hany =>
    obtain ⟨p, hp, hdec⟩ := List.any_eq_true.mp hany
    have hpk : p.1 = k := of_decide_eq_true hdec
    refine List.mem_map.mpr ⟨(k, v), List.mem_map.mpr ⟨p, hp, ?_⟩, rfl⟩
    rw [if_pos hpk]
  · simp

lemma keys_mono_dictInsert {m : List (Str × Content)} (k : Str) (v : Content)
    {k' : Str} (h : k' ∈ m.map Prod.fst) :
    k' ∈ (IOFiles.dictInsert m k v).map Prod.fst := by
  unfold IOFiles.dictInsert
  split
  · rw [List.map_map]
    have hcong : ∀ p ∈ m,
        (Prod.fst ∘ fun kv => if kv.1 = k then (k, v) else kv) p = Prod.fst p := by
      intro p _
      by_cases hc : p.1 = k
      · simp [hc]
      · simp [hc]
    rw [List.map_congr_left hcong]
    exact h
  · rw [List.map_append]
    exact List.mem_append_left _ h

lemma mem_dictOfPairs : ∀ (l acc : List (Str × Content)) (kv : Str × Content),
    kv ∈ IOFiles.dictOfPairs acc l → kv ∈ acc ∨ kv ∈ l := by
  intro l
  induction l with
  | nil => intro acc kv h; exact Or.inl h
  | cons e rest ih =>
    intro acc kv h
    obtain ⟨k, v⟩ := e
    unfold IOFiles.dictOfPairs at h
    rcases ih (IOFiles.dictInsert acc k v) kv h with h2 | h2
    · rcases mem_dictInsert_elim h2 with h3 | h3
      · exact Or.inl h3
      · exact Or.inr (by simp [h3])
    · exact Or.inr (List.mem_cons_of_mem _ h2)

lemma keys_dictOfPairs_mono : ∀ (l acc : List (Str × Content)) (k : Str),
    k ∈ acc.map Prod.fst → k ∈ (IOFiles.dictOfPairs acc l).map Prod.fst := by
  intro l
  induction l with
  | nil => intro acc k h; exact h
  | cons e rest ih =>
    intro acc k h
    obtain ⟨k₀, v₀⟩ := e
    unfold IOFiles.dictOfPairs
    exact ih _ k (keys_mono_dictInsert k₀ v₀ h)

lemma keys_dictOfPairs_complete : ∀ (l acc : List (Str × Content)) (k : Str),
    k ∈ l.map Prod.fst → k ∈ (IOFiles.dictOfPairs acc l).map Prod.fst := by
  intro l
  induction l with
  | nil => intro acc k h; cases h
  | cons e rest ih =>
    intro acc k h
    obtain ⟨k₀, v₀⟩ := e
    unfold IOFiles.dictOfPairs
    rcases List.mem_cons.mp h with h2 | h2
    · have hk : k = k₀ := by simpa using h2
      subst hk
      exact keys_dictOfPairs_mono rest _ k (key_mem_dictInsert acc k v₀)
    · exact ih _ k (by simpa using h2)

/- ------------------------------------------------------------------ -/
/- Claim C1: uniform exception handling.                              -/
/- ------------------------------------------------------------------ -/

/-- Claim C1 counterexample. The claim says every failure inside every
    public operation is caught and converted to a benign default, with no
    exception ever propagating to the caller. It is false: reading a
    directory that contains a subdirectory named sub.json makes read_json
    hit IsADirectoryError, which its except clauses (FileNotFoundError,
    JSONDecodeError) do not catch, so the exception escapes
    read_dir_contents to the caller. -/
theorem C1_counterexample :
    IOFiles.read_dir_contents ⟨["d".data, "d/sub.json".data], []⟩ "d".data
      "json".data = .error .isADirectoryError := rfl

/-- Claim C1 (amended): raw-text reads and writes, tabular reads and
    writes, and JSON writes catch every exception and return a benign
    default (empty string, empty frame, or a silent no-op); JSON reads
    catch only missing-file and decode errors, and any other exception
    (in the model, opening a path that is a directory) propagates to the
    caller. -/
theorem C1_amended (fs : FS) (p dt : Str) (d : Content) (i : Nat) (e : Exc) :
    (∃ s, IOFiles.read_file fs p = .ok s) ∧
    (∃ fs', IOFiles.write_file fs p d = .ok fs') ∧
    (∃ f, IOFiles.read_df fs p dt = .ok f) ∧
    (∃ fs', IOFiles.write_df fs p d dt = .ok fs') ∧
    (∃ fs', IOFiles.write_json fs p d i = .ok fs') ∧
    (IOFiles.read_json fs p = .error e → e = .isADirectoryError) := by
  refine ⟨read_file_ok fs p, ?_, read_df_ok fs p dt, ?_, ?_,
    fun h => read_json_error_isdir h⟩
  · obtain ⟨fs', h, _⟩ := write_file_ok fs p d
    exact ⟨fs', h⟩
  · obtain ⟨fs', h, _⟩ := write_df_ok fs p d dt
    exact ⟨fs', h⟩
  · obtain ⟨fs', h, _⟩ := write_json_ok fs p d i
    exact ⟨fs', h⟩

/-- Claim C1 amended witness: the handling facts at concrete inputs, with
    the propagation hypothesis discharged on a filesystem where the read
    path is a directory. -/
theorem C1_amended_witness :
    (∃ s, IOFiles.read_file ⟨[], []⟩ "x.txt".data = .ok s) ∧
    Exc.isADirectoryError = Exc.isADirectoryError :=
  ⟨(C1_amended ⟨[], []⟩ "x.txt".data "csv".data (.val .null) 4
      .fileNotFound).1,
   (C1_amended ⟨["d".data], []⟩ "d".data "csv".data (.val .null) 4
      .isADirectoryError).2.2.2.2.2 rfl⟩

/- ------------------------------------------------------------------ -/
/- Claim C7: missing or non-directory path reads as an empty mapping.  -/
/- ------------------------------------------------------------------ -/

/-- Claim C7: for every path that does not exist or is not a directory,
    and every dtype tag, both the synchronous and the asynchronous
    directory reader return an empty mapping and raise no error. -/
theorem C7_nonexistent_dir (fs : FS) (path dtype : Str)
    (h : fs.pathExists path = false ∨ fs.isdir path = false) :
    IOFiles.read_dir_contents fs path dtype = .ok [] ∧
    IOFiles.read_dir_contents_async fs path dtype = .ok [] := by
  have hb : (fs.pathExists path && fs.isdir path) = false := by
    rcases h with h | h <;> simp [h]
  constructor
  · simp [IOFiles.read_dir_contents, hb]
  · simp [IOFiles.read_dir_contents_async, hb, IOFiles.gather,
      IOFiles.dictOfPairs]

/-- Claim C7 witness: reading a path absent from an empty filesystem. -/
theorem C7_witness :
    IOFiles.read_dir_contents ⟨[], []⟩ "missing".data "json".data = .ok [] ∧
    IOFiles.read_dir_contents_async ⟨[], []⟩ "missing".data "json".data
      = .ok [] :=
  C7_nonexistent_dir ⟨[], []⟩ "missing".data "json".data (Or.inl rfl)

/- ------------------------------------------------------------------ -/
/- Claim C8: tabular reader failure handling.                         -/
/- ------------------------------------------------------------------ -/

/-- Claim C8: for a dtype tag outside csv, pickle, xlsx the tabular read
    body raises ValueError, which read_df catches, returning an empty
    frame; a missing file likewise yields an empty frame; and read_df
    never lets any exception reach the caller. -/
theorem C8_read_df (fs : FS) (p dt : Str) :
    (dt ∉ dataframeTags →
      IOFiles.read_df_body fs p dt = .error .valueError ∧
      IOFiles.read_df fs p dt = .ok emptyFrame) ∧
    (dt ∈ dataframeTags → fs.pathExists p = false →
      IOFiles.read_df fs p dt = .ok emptyFrame) ∧
    (∃ f, IOFiles.read_df fs p dt = .ok f) := by
  refine ⟨?_, ?_, read_df_ok fs p dt⟩
  · intro hnot
    have h1 : dt ≠ "csv".data := fun h => hnot (by rw [h]; simp [dataframeTags])
    have h2 : dt ≠ "pickle".data := fun h => hnot (by rw [h]; simp [dataframeTags])
    have h3 : dt ≠ "xlsx".data := fun h => hnot (by rw [h]; simp [dataframeTags])
    have hbody : IOFiles.read_df_body fs p dt = .error .valueError := by
      unfold IOFiles.read_df_body
      rw [if_neg h1, if_neg h2, if_neg h3]
    refine ⟨hbody, ?_⟩
    unfold IOFiles.read_df
    rw [hbody]
  · intro hmem hne
    have ho := openRead_not_exists hne
    have hmem' : dt = "csv".data ∨ dt = "xlsx".data ∨ dt = "pickle".data := by
      simpa [dataframeTags] using hmem
    rcases hmem' with rfl | rfl | rfl
    · simp [IOFiles.read_df, IOFiles.read_df_body, ho]
    · simp [IOFiles.read_df, IOFiles.read_df_body, ho]
    · simp [IOFiles.read_df, IOFiles.read_df_body, ho]

/-- Claim C8 witness: an unrecognized tag and a missing csv file, both
    yielding an empty frame. -/
theorem C8_witness :
    (IOFiles.read_df_body ⟨[], []⟩ "f.tsv".data "tsv".data
        = .error .valueError ∧
      IOFiles.read_df ⟨[], []⟩ "f.tsv".data "tsv".data = .ok emptyFrame) ∧
    IOFiles.read_df ⟨[], []⟩ "g.csv".data "csv".data = .ok emptyFrame :=
  ⟨(C8_read_df ⟨[], []⟩ "f.tsv".data "tsv".data).1 (by decide),
   (C8_read_df ⟨[], []⟩ "g.csv".data "csv".data).2.1 (by decide) rfl⟩

/- ------------------------------------------------------------------ -/
/- Claim C3: directory map keys.                                      -/
/- ------------------------------------------------------------------ -/

lemma readDirLoop_keys {fs : FS} {path dtype : Str} :
    ∀ (files : List Str) (acc m : List (Str × Content)),
      IOFiles.readDirLoop fs path dtype files acc = .ok m →
      ∀ kv ∈ m,
        (∃ file ∈ files, pyEndsWith file dtype = true ∧
          kv.1 = pyReplace file ('.' :: dtype) []) ∨ kv ∈ acc := by
  intro files
  induction files with
  | nil =>
    intro acc m h kv hkv
    unfold IOFiles.readDirLoop at h
    injection h with h2
    subst h2
    exact Or.inr hkv
  | cons file rest ih =>
    intro acc m h kv hkv
    unfold IOFiles.readDirLoop at h
    by_cases he : pyEndsWith file dtype = true
    · rw [if_pos he] at h
      cases hr : IOFiles.readEntry fs path file dtype with
      | error e =>
        rw [hr] at h
        exact Except.noConfusion h
      | ok v =>
        rw [hr] at h
        rcases ih _ m h kv hkv with ⟨f2, hf2, hrest⟩ | hacc
        · exact Or.inl ⟨f2, List.mem_cons_of_mem _ hf2, hrest⟩
        · rcases mem_dictInsert_elim hacc with h3 | h3
          · exact Or.inr h3
          · refine Or.inl ⟨file, List.mem_cons_self _ _, he, ?_⟩
            rw [h3]
    · rw [if_neg he] at h
      rcases ih _ m h kv hkv with ⟨f2, hf2, hrest⟩ | hacc
      · exact Or.inl ⟨f2, List.mem_cons_of_mem _ hf2, hrest⟩
      · exact Or.inr hacc

/-- Claim C3 counterexample. The claim says each key equals the on-disk
    filename with exactly its trailing dtype suffix removed and no other
    part altered. It is false: str.replace removes every occurrence, so a
    file named a.json.json is keyed a, not a.json. -/
theorem C3_counterexample :
    IOFiles.read_dir_contents
        ⟨["d".data], [("d/a.json.json".data, .jsonDoc (.obj .nil) 4)]⟩
        "d".data "json".data = .ok [("a".data, .val (.obj .nil))] ∧
    "a".data ≠ "a.json".data :=
  ⟨rfl, by decide⟩

/-- Claim C3 (amended): each key of the mapping returned by the directory
    reader equals some matching on-disk filename with every occurrence of
    the dot-prefixed dtype pattern removed (Python str.replace); whenever
    that pattern occurs in the filename only as its trailing suffix, the
    key is exactly the filename minus that suffix. -/
theorem C3_amended (fs : FS) (path dtype : Str) (m : List (Str × Content))
    (h : IOFiles.read_dir_contents fs path dtype = .ok m) :
    ∀ kv ∈ m, ∃ file ∈ fs.listdir path, pyEndsWith file dtype = true ∧
      kv.1 = pyReplace file ('.' :: dtype) [] ∧
      ∀ stem, file = stem ++ '.' :: dtype →
        onlyTrailing ('.' :: dtype) stem = true → kv.1 = stem := by
  intro kv hkv
  unfold IOFiles.read_dir_contents at h
  by_cases hg : (fs.pathExists path && fs.isdir path) = true
  · rw [if_pos hg] at h
    rcases readDirLoop_keys _ _ m h kv hkv with ⟨file, hf, he, hk⟩ | hacc
    · refine ⟨file, hf, he, hk, ?_⟩
      rintro stem rfl hot
      rw [hk]
      exact pyReplace_trailing ('.' :: dtype) stem (by simp) hot
    · cases hacc
  · rw [if_neg hg] at h
    injection h with h2
    subst h2
    cases hkv

/-- Claim C3 amended witness: a single well-behaved json file keyed by its
    stem. -/
theorem C3_witness :
    ∃ file ∈ FS.listdir
        ⟨["d".data], [("d/x.json".data, Bytes.jsonDoc (.obj .nil) 4)]⟩ "d".data,
      pyEndsWith file "json".data = true ∧
      ("x".data, Content.val (.obj .nil)).1 = pyReplace file ('.' :: "json".data) [] ∧
      ∀ stem, file = stem ++ '.' :: "json".data →
        onlyTrailing ('.' :: "json".data) stem = true →
        ("x".data, Content.val (.obj .nil)).1 = stem :=
  C3_amended ⟨["d".data], [("d/x.json".data, Bytes.jsonDoc (.obj .nil) 4)]⟩
    "d".data "json".data [("x".data, .val (.obj .nil))] rfl
    ("x".data, .val (.obj .nil)) (by decide)

/- ------------------------------------------------------------------ -/
/- Claim C6: the async "all" sentinel.                                -/
/- ------------------------------------------------------------------ -/

lemma collectAsync_keys_complete {fs : FS} {path dtype : Str} :
    ∀ (files : List Str) (file : Str), file ∈ files →
      pyEndsWith file dtype = true →
      (if dtype ≠ "all".data then pyReplace file ('.' :: dtype) [] else file)
        ∈ (IOFiles.collectAsync fs path dtype files).map Prod.fst := by
  intro files
  induction files with
  | nil => intro file hf _; cases hf
  | cons f0 rest ih =>
    intro file hf he
    unfold IOFiles.collectAsync
    rcases List.mem_cons.mp hf with rfl | hf2
    · rw [if_pos he]
      exact List.mem_map.mpr ⟨_, List.mem_cons_self _ _, rfl⟩
    · by_cases he0 : pyEndsWith f0 dtype = true
      · rw [if_pos he0]
        rw [List.map_cons]
        exact List.mem_cons_of_mem _ (ih file hf2 he)
      · rw [if_neg he0]
        exact ih file hf2 he

lemma forall₂_mem_right {α β : Type} {R : α → β → Prop} :
    ∀ {ts : List α} {vs : List β}, List.Forall₂ R ts vs →
      ∀ v ∈ vs, ∃ t ∈ ts, R t v := by
  intro ts vs h
  induction h with
  | nil => intro v hv; cases hv
  | cons hR _ ih =>
    intro v hv
    rcases List.mem_cons.mp hv with rfl | hv2
    · exact ⟨_, List.mem_cons_self _ _, hR⟩
    · obtain ⟨t, ht, hR2⟩ := ih v hv2
      exact ⟨t, List.mem_cons_of_mem _ ht, hR2⟩

/-- Claim C6 counterexample. The claim says that with the "all" sentinel
    every entry of the directory is kept under its full filename. It is
    false: the endswith filter runs before the sentinel is consulted, so
    an entry x.json, whose name does not end in the characters all, is
    dropped and the result is empty. -/
theorem C6_counterexample :
    FS.listdir ⟨["d".data], [("d/x.json".data, .text "hi")]⟩ "d".data
      = ["x.json".data] ∧
    IOFiles.read_dir_contents_async
        ⟨["d".data], [("d/x.json".data, .text "hi")]⟩ "d".data "all".data
      = .ok [] :=
  ⟨rfl, rfl⟩

/-- Claim C6 (amended): with the "all" sentinel the async reader keeps
    exactly the entries whose names end in the characters all, each under
    its full filename (no suffix stripped): every key of the result is
    such a filename of the directory, and every such filename of the
    directory occurs as a key. -/
theorem C6_amended (fs : FS) (path : Str) (m : List (Str × Content))
    (h : IOFiles.read_dir_contents_async fs path "all".data = .ok m) :
    (∀ kv ∈ m, kv.1 ∈ fs.listdir path ∧ pyEndsWith kv.1 "all".data = true) ∧
    (∀ file ∈ fs.listdir path, pyEndsWith file "all".data = true →
      fs.pathExists path = true → fs.isdir path = true →
      file ∈ m.map Prod.fst) := by
  unfold IOFiles.read_dir_contents_async at h
  by_cases hg : (fs.pathExists path && fs.isdir path) = true
  · simp only [if_pos hg] at h
    cases hga : IOFiles.gather
        ((IOFiles.collectAsync fs path "all".data (fs.listdir path)).map
          (fun it => it.2)) with
    | error e =>
      rw [hga] at h
      exact Except.noConfusion h
    | ok results =>
      rw [hga] at h
      injection h with h2
      subst h2
      constructor
      · intro kv hkv
        rcases mem_dictOfPairs _ _ kv hkv with hnil | hzip
        · cases hnil
        · have hfst := (List.of_mem_zip hzip).1
          obtain ⟨pr, hpr, hpr1⟩ := List.mem_map.mp hfst
          obtain ⟨file, hfile, he, hk, _⟩ := collectAsync_mem hpr
          rw [if_neg (by simp)] at hk
          rw [← hpr1, hk]
          exact ⟨hfile, he⟩
      · intro file hfile he _ _
        have hkey := @collectAsync_keys_complete fs path "all".data
          (fs.listdir path) file hfile he
        rw [if_neg (by simp)] at hkey
        have hlen :
            ((IOFiles.collectAsync fs path "all".data (fs.listdir path)).map
              Prod.fst).length ≤ results.length := by
          have h2 := (gather_forall₂ hga).length_eq
          simp only [List.length_map] at h2 ⊢
          omega
        apply keys_dictOfPairs_complete
        rw [List.map_fst_zip _ _ hlen]
        exact hkey
  · simp only [if_neg hg] at h
    have h2 : m = [] := (Except.ok.inj h).symm
    subst h2
    constructor
    · intro kv hkv; cases hkv
    · intro file _ _ hpe hid
      rw [hpe, hid] at hg
      simp at hg

/-- Claim C6 amended witness: one entry whose name ends in all, kept under
    its full filename. -/
theorem C6_witness :
    (∀ kv ∈ ([("x.all".data, Content.val (.str "hi"))] : List (Str × Content)),
      kv.1 ∈ FS.listdir ⟨["d".data], [("d/x.all".data, Bytes.text "hi")]⟩
        "d".data ∧
      pyEndsWith kv.1 "all".data = true) ∧
    (∀ file ∈ FS.listdir ⟨["d".data], [("d/x.all".data, Bytes.text "hi")]⟩
        "d".data,
      pyEndsWith file "all".data = true →
      FS.pathExists ⟨["d".data], [("d/x.all".data, Bytes.text "hi")]⟩ "d".data
        = true →
      FS.isdir ⟨["d".data], [("d/x.all".data, Bytes.text "hi")]⟩ "d".data
        = true →
      file ∈ ([("x.all".data, Content.val (.str "hi"))] :
        List (Str × Content)).map Prod.fst) :=
  C6_amended ⟨["d".data], [("d/x.all".data, Bytes.text "hi")]⟩ "d".data
    [("x.all".data, .val (.str "hi"))] rfl

/- ------------------------------------------------------------------ -/
/- Claim C4: async fan-out and exception containment.                 -/
/- ------------------------------------------------------------------ -/

lemma collectAsync_tasks_ok {fs : FS} {path dtype : Str}
    (hj : dtype ≠ "json".data) (files : List Str) :
    ∀ t ∈ (IOFiles.collectAsync fs path dtype files).map (fun it => it.2),
      ∃ v, t = .ok v := by
  intro t ht
  obtain ⟨pr, hpr, rfl⟩ := List.mem_map.mp ht
  obtain ⟨file, _, _, _, h2⟩ := collectAsync_mem hpr
  rw [h2, if_neg hj]
  obtain ⟨s, hs⟩ := read_file_ok fs (pjoin path file)
  rw [show IOFiles.read_file_async fs (pjoin path file)
      = IOFiles.read_file fs (pjoin path file) from rfl, hs]
  exact ⟨.val (.str s), rfl⟩

lemma read_dir_contents_async_ok {fs : FS} {path dtype : Str}
    (hj : dtype ≠ "json".data) :
    ∃ m, IOFiles.read_dir_contents_async fs path dtype = .ok m := by
  unfold IOFiles.read_dir_contents_async
  by_cases hg : (fs.pathExists path && fs.isdir path) = true
  · simp only [if_pos hg]
    obtain ⟨vs, hvs⟩ := gather_total (collectAsync_tasks_ok hj (fs.listdir path))
    rw [hvs]
    exact ⟨_, rfl⟩
  · simp only [if_neg hg]
    exact ⟨_, rfl⟩

/-- Claim C4 counterexample. The claim says an exception inside one async
    task is caught inside that task and never propagates out of the
    directory-level call. It is false for json read tasks: a subdirectory
    entry named sub.json raises IsADirectoryError inside read_json_async,
    whose except clauses do not catch it, and asyncio.gather re-raises it
    from read_dir_contents_async. -/
theorem C4_counterexample :
    IOFiles.read_dir_contents_async ⟨["d".data, "d/sub.json".data], []⟩
      "d".data "json".data = .error .isADirectoryError := rfl

/-- Claim C4 (amended): raw-text read tasks and all write tasks swallow
    every exception, so the async directory reader completes for every
    non-json dtype and the async directory writer completes whenever the
    target exists; a json read task catches only missing-file and decode
    errors, and any other exception propagates out of the directory-level
    call. -/
theorem C4_amended (fs : FS) (path p dtype : Str)
    (contents : List (Str × Content)) (e : Exc) :
    (dtype ≠ "json".data →
      ∃ m, IOFiles.read_dir_contents_async fs path dtype = .ok m) ∧
    (fs.pathExists path = true →
      ∃ fs', IOFiles.write_contents_to_dir_async fs path contents dtype
        = .ok fs') ∧
    (IOFiles.read_json_async fs p = .error e → e = .isADirectoryError) := by
  refine ⟨fun hj => read_dir_contents_async_ok hj, fun hex => ?_,
    fun h => read_json_error_isdir h⟩
  unfold IOFiles.write_contents_to_dir_async
  rw [if_neg (by simp [hex])]
  obtain ⟨fs', h, _⟩ := writeDirLoopAsync_ok path dtype contents fs
  rw [show (Except.ok fs : Except Exc FS) = .ok fs from rfl]
  exact ⟨fs', h⟩

/-- Claim C4 amended witness: a raw-text directory read and a write into
    an existing directory complete, and the propagation hypothesis is
    discharged on a json read of a directory path. -/
theorem C4_witness :
    (∃ m, IOFiles.read_dir_contents_async
      ⟨["d".data], [("d/x.txt".data, Bytes.text "hi")]⟩ "d".data "txt".data
      = .ok m) ∧
    (∃ fs', IOFiles.write_contents_to_dir_async
      ⟨["d".data], []⟩ "d".data [("a".data, Content.val (.str "v"))] "txt".data
      = .ok fs') ∧
    Exc.isADirectoryError = Exc.isADirectoryError :=
  ⟨(C4_amended ⟨["d".data], [("d/x.txt".data, Bytes.text "hi")]⟩ "d".data
      "d".data "txt".data [] .fileNotFound).1 (by decide),
   (C4_amended ⟨["d".data], []⟩ "d".data "d".data "txt".data
      [("a".data, Content.val (.str "v"))] .fileNotFound).2.1 rfl,
   (C4_amended ⟨["d".data], []⟩ "d".data "d".data "txt".data []
      .isADirectoryError).2.2 rfl⟩

/- ------------------------------------------------------------------ -/
/- Claim C5: the async variants never touch the tabular codec.        -/
/- ------------------------------------------------------------------ -/

lemma tags_ne_json {dtype : Str} (h : dtype ∈ dataframeTags) :
    dtype ≠ "json".data := by
  have h2 : dtype = "csv".data ∨ dtype = "xlsx".data ∨ dtype = "pickle".data := by
    simpa [dataframeTags] using h
  rcases h2 with rfl | rfl | rfl <;> decide

lemma writeCaught_cases {fs : FS} {r : Except Exc FS} {fs' : FS}
    (h : IOFiles.writeCaught fs r = .ok fs') : fs' = fs ∨ r = .ok fs' := by
  cases r with
  | ok fs2 => exact Or.inr h
  | error e => exact Or.inl (Except.ok.inj h).symm

lemma write_file_files_sub {fs : FS} {p : Str} {d : Content} {fs' : FS}
    (h : IOFiles.write_file fs p d = .ok fs') :
    ∀ e ∈ fs'.files, e ∈ fs.files ∨ ∃ s, e.2 = Bytes.text s := by
  unfold IOFiles.write_file at h
  cases h1 : fs.writeBytes p (.text "") with
  | error e0 =>
    rw [h1] at h
    have h2 : fs = fs' := Except.ok.inj h
    intro e he
    rw [← h2] at he
    exact Or.inl he
  | ok fsO =>
    rw [h1] at h
    have hO := writeBytes_ok_eq h1
    have hOmem : ∀ e ∈ fsO.files, e ∈ fs.files ∨ ∃ s, e.2 = Bytes.text s := by
      intro e he
      rw [hO] at he
      rcases mem_putFile _ _ _ _ he with h3 | h3
      · exact Or.inl h3
      · exact Or.inr ⟨"", by rw [h3]⟩
    cases d with
    | frame f =>
      intro e he
      have h2 : fsO = fs' := Except.ok.inj h
      exact hOmem e (by rw [h2]; exact he)
    | val j =>
      cases j with
      | str s =>
        rcases writeCaught_cases h with h2 | h2
        · intro e he
          rw [h2] at he
          exact hOmem e he
        · have h3 := writeBytes_ok_eq h2
          intro e he
          rw [h3] at he
          rcases mem_putFile _ _ _ _ he with h4 | h4
          · exact hOmem e h4
          · exact Or.inr ⟨s, by rw [h4]⟩
      | null =>
        intro e he
        have h2 : fsO = fs' := Except.ok.inj h
        exact hOmem e (by rw [h2]; exact he)
      | bool b =>
        intro e he
        have h2 : fsO = fs' := Except.ok.inj h
        exact hOmem e (by rw [h2]; exact he)
      | num n =>
        intro e he
        have h2 : fsO = fs' := Except.ok.inj h
        exact hOmem e (by rw [h2]; exact he)
      | arr es =>
        intro e he
        have h2 : fsO = fs' := Except.ok.inj h
        exact hOmem e (by rw [h2]; exact he)
      | obj fl =>
        intro e he
        have h2 : fsO = fs' := Except.ok.inj h
        exact hOmem e (by rw [h2]; exact he)

lemma makedirs_files {fs : FS} {p : Str} {fs1 : FS}
    (h : fs.makedirs p = .ok fs1) : fs1.files = fs.files := by
  unfold FS.makedirs at h
  split at h
  · cases h
  · injection h with h2
    rw [← h2]

lemma writeDirLoopAsync_files_sub {path dtype : Str} (hj : dtype ≠ "json".data) :
    ∀ (todo : List (Str × Content)) (fs fs' : FS),
      IOFiles.writeDirLoopAsync path dtype fs todo = .ok fs' →
      ∀ e ∈ fs'.files, e ∈ fs.files ∨ ∃ s, e.2 = Bytes.text s := by
  intro todo
  induction todo with
  | nil =>
    intro fs fs' h e he
    have h2 : fs = fs' := Except.ok.inj h
    rw [← h2] at he
    exact Or.inl he
  | cons en rest ih =>
    intro fs fs' h e he
    obtain ⟨ident, c⟩ := en
    unfold IOFiles.writeDirLoopAsync at h
    rw [if_neg hj] at h
    cases hw : IOFiles.write_file_async fs (pjoin path (ident ++ '.' :: dtype)) c with
    | error e0 =>
      rw [hw] at h
      exact Except.noConfusion h
    | ok fs1 =>
      rw [hw] at h
      rcases ih fs1 fs' h e he with h2 | h2
      · exact write_file_files_sub hw e h2
      · exact Or.inr h2

/-- Claim C5: the async directory reader and writer exclude tabular
    types: with a tabular dtype tag every value the async reader returns
    is a raw text string (never a frame decoded by the tabular codec),
    and every file the async writer leaves behind is either untouched or
    holds raw text bytes (never a tabular serialization). -/
theorem C5_async_excludes_tabular (fs : FS) (path dtype : Str)
    (m contents : List (Str × Content)) (fs' : FS)
    (hdt : dtype ∈ dataframeTags) :
    (IOFiles.read_dir_contents_async fs path dtype = .ok m →
      ∀ kv ∈ m, ∃ s, kv.2 = Content.val (.str s)) ∧
    (IOFiles.write_contents_to_dir_async fs path contents dtype = .ok fs' →
      ∀ e ∈ fs'.files, e ∈ fs.files ∨ ∃ s, e.2 = Bytes.text s) := by
  have hj : dtype ≠ "json".data := tags_ne_json hdt
  constructor
  · intro h kv hkv
    unfold IOFiles.read_dir_contents_async at h
    by_cases hg : (fs.pathExists path && fs.isdir path) = true
    · simp only [if_pos hg] at h
      cases hga : IOFiles.gather
          ((IOFiles.collectAsync fs path dtype (fs.listdir path)).map
            (fun it => it.2)) with
      | error e0 =>
        rw [hga] at h
        exact Except.noConfusion h
      | ok results =>
        rw [hga] at h
        injection h with h2
        subst h2
        rcases mem_dictOfPairs _ _ kv hkv with hnil | hzip
        · cases hnil
        · have hsnd := (List.of_mem_zip hzip).2
          obtain ⟨t, ht, hR⟩ :=
            forall₂_mem_right (gather_forall₂ hga) kv.2 hsnd
          obtain ⟨pr, hpr, hpr2⟩ := List.mem_map.mp ht
          obtain ⟨file, _, _, _, hshape⟩ := collectAsync_mem hpr
          rw [if_neg hj] at hshape
          obtain ⟨s, hs⟩ := read_file_ok fs (pjoin path file)
          rw [← hpr2, hshape] at hR
          rw [show IOFiles.read_file_async fs (pjoin path file)
              = IOFiles.read_file fs (pjoin path file) from rfl, hs] at hR
          exact ⟨s, (Except.ok.inj hR).symm⟩
    · simp only [if_neg hg] at h
      have h2 : m = [] := (Except.ok.inj h).symm
      subst h2
      cases hkv
  · intro h e he
    unfold IOFiles.write_contents_to_dir_async at h
    by_cases hex : fs.pathExists path = false
    · rw [if_pos hex] at h
      cases hmk : fs.makedirs path with
      | error e0 =>
        rw [hmk] at h
        exact Except.noConfusion h
      | ok fs1 =>
        rw [hmk] at h
        rcases writeDirLoopAsync_files_sub hj contents fs1 fs' h e he with h2 | h2
        · rw [makedirs_files hmk] at h2
          exact Or.inl h2
        · exact Or.inr h2
    · rw [if_neg hex] at h
      exact writeDirLoopAsync_files_sub hj contents fs fs' h e he

/-- Claim C5 witness: a csv-tagged async directory read returning the raw
    file text, and a csv-tagged async write of a frame that leaves only an
    empty text file behind. -/
theorem C5_witness :
    (∀ kv ∈ ([("t".data, Content.val (.str "a,b"))] : List (Str × Content)),
      ∃ s, kv.2 = Content.val (.str s)) ∧
    (∀ e ∈ (⟨["d".data], [("d/a.csv".data, Bytes.text "")]⟩ : FS).files,
      e ∈ (⟨["d".data], []⟩ : FS).files ∨ ∃ s, e.2 = Bytes.text s) :=
  ⟨(C5_async_excludes_tabular
      ⟨["d".data], [("d/t.csv".data, Bytes.text "a,b")]⟩ "d".data "csv".data
      [("t".data, .val (.str "a,b"))] []
      ⟨["d".data], [("d/t.csv".data, Bytes.text "a,b")]⟩ (by decide)).1 rfl,
   (C5_async_excludes_tabular ⟨["d".data], []⟩ "d".data "csv".data []
      [("a".data, .frame ⟨[], []⟩)]
      ⟨["d".data], [("d/a.csv".data, Bytes.text "")]⟩ (by decide)).2 rfl⟩

/- ------------------------------------------------------------------ -/
/- Claim C9: directory creation before writing.                       -/
/- ------------------------------------------------------------------ -/

lemma isdir_iff_mem (fs : FS) (q : Str) : fs.isdir q = true ↔ q ∈ fs.dirs := by
  unfold FS.isdir
  rw [List.any_eq_true]
  constructor
  · rintro ⟨d, hd, hdq⟩
    exact (of_decide_eq_true hdq) ▸ hd
  · intro h
    exact ⟨q, h, by simp⟩

lemma makedirs_pos {fs : FS} {p : Str}
    (hmk : ∀ q ∈ pathPrefixes p, fs.isfile q = false) :
    fs.makedirs p = .ok
      ⟨fs.dirs ++ (pathPrefixes p).filter (fun q => !(fs.isdir q)), fs.files⟩ := by
  have hany : ((pathPrefixes p).any (fun q => fs.isfile q)) = false := by
    cases hc : (pathPrefixes p).any (fun q => fs.isfile q) with
    | false => rfl
    | true =>
      obtain ⟨q, hq, hfq⟩ := List.any_eq_true.mp hc
      rw [hmk q hq] at hfq
      cases hfq
  simp [FS.makedirs, hany]

lemma mem_dirs_after_makedirs {fs : FS} {p : Str} :
    ∀ q ∈ pathPrefixes p,
      q ∈ fs.dirs ++ (pathPrefixes p).filter (fun q => !(fs.isdir q)) := by
  intro q hq
  by_cases hd : fs.isdir q = true
  · exact List.mem_append_left _ ((isdir_iff_mem fs q).mp hd)
  · have hfalse : fs.isdir q = false := by
      cases hfs : fs.isdir q
      · rfl
      · exact absurd hfs hd
    refine List.mem_append_right _ (List.mem_filter.mpr ⟨hq, ?_⟩)
    rw [hfalse]
    rfl

/-- Claim C9: for every call to the directory writers, sync or async,
    with a nonexistent and creatable target path, the directory and all
    missing ancestors are created (makedirs runs before the write loop),
    the call completes, and every ancestor is a directory afterwards. -/
theorem C9_creates_dirs (fs : FS) (path : Str)
    (contents : List (Str × Content)) (dtype : Str)
    (hne : fs.pathExists path = false)
    (hmk : ∀ q ∈ pathPrefixes path, fs.isfile q = false) :
    (∃ fs', IOFiles.write_contents_to_dir fs path contents dtype = .ok fs' ∧
      ∀ q ∈ pathPrefixes path, fs'.isdir q = true) ∧
    (∃ fs'', IOFiles.write_contents_to_dir_async fs path contents dtype
        = .ok fs'' ∧
      ∀ q ∈ pathPrefixes path, fs''.isdir q = true) := by
  have hmd := makedirs_pos hmk
  constructor
  · unfold IOFiles.write_contents_to_dir
    rw [if_pos hne, hmd]
    obtain ⟨fs', hloop, hdirs⟩ := writeDirLoop_ok path dtype contents _
    refine ⟨fs', hloop, ?_⟩
    intro q hq
    rw [isdir_iff_mem, hdirs]
    exact mem_dirs_after_makedirs q hq
  · unfold IOFiles.write_contents_to_dir_async
    rw [if_pos hne, hmd]
    obtain ⟨fs'', hloop, hdirs⟩ := writeDirLoopAsync_ok path dtype contents _
    refine ⟨fs'', hloop, ?_⟩
    intro q hq
    rw [isdir_iff_mem, hdirs]
    exact mem_dirs_after_makedirs q hq

/-- Claim C9 witness: writing into the fresh nested path a/b creates both
    a and a/b. -/
theorem C9_witness :
    (∃ fs', IOFiles.write_contents_to_dir ⟨[], []⟩ "a/b".data
        [("x".data, Content.val (.str "v"))] "txt".data = .ok fs' ∧
      ∀ q ∈ pathPrefixes "a/b".data, fs'.isdir q = true) ∧
    (∃ fs'', IOFiles.write_contents_to_dir_async ⟨[], []⟩ "a/b".data
        [("x".data, Content.val (.str "v"))] "txt".data = .ok fs'' ∧
      ∀ q ∈ pathPrefixes "a/b".data, fs''.isdir q = true) :=
  C9_creates_dirs ⟨[], []⟩ "a/b".data [("x".data, .val (.str "v"))] "txt".data
    rfl (by decide)

/- ------------------------------------------------------------------ -/
/- Claim C10: writing into a path that is an existing regular file.    -/
/- ------------------------------------------------------------------ -/

lemma prefix_of_append_ext (a b u : Str) (h : b ++ ['/'] = a ++ u)
    (hlen : a.length ≤ b.length) : a.isPrefixOf b = true := by
  have h1 : (b ++ ['/']).take a.length = b.take a.length :=
    List.take_append_of_le_length hlen
  rw [h] at h1
  rw [show (a ++ u).take a.length = a from List.take_left a u] at h1
  refine (myPrefix_iff a b).mpr ⟨b.drop a.length, ?_⟩
  conv_lhs => rw [← List.take_append_drop a.length b]
  rw [← h1]

lemma parentOk_false_under_file {fs : FS} {path q : Str}
    (hd : fs.isdir path = false)
    (hnd : ∀ d ∈ fs.dirs, (path ++ ['/']).isPrefixOf d = false)
    (hq : (path ++ ['/']).isPrefixOf q = true) :
    fs.parentOk q = false := by
  obtain ⟨t, rfl⟩ := (myPrefix_iff _ _).mp hq
  unfold FS.parentOk
  have hmemq : '/' ∈ (path ++ ['/']) ++ t := by simp
  have h1 : decide ('/' ∉ (path ++ ['/']) ++ t) = false :=
    decide_eq_false (fun hno => hno hmemq)
  have h2 : fs.dirs.any
      (fun d => (entryName d ((path ++ ['/']) ++ t)).isSome) = false := by
    cases hc : fs.dirs.any
        (fun d => (entryName d ((path ++ ['/']) ++ t)).isSome) with
    | false => rfl
    | true =>
      exfalso
      obtain ⟨d, hdmem, hsome⟩ := List.any_eq_true.mp hc
      obtain ⟨n, hn⟩ := Option.isSome_iff_exists.mp hsome
      obtain ⟨hq2, hslash, _⟩ := entryName_some hn
      rw [pjoin_decompose] at hq2
      have hpd : (d ++ ['/']).isPrefixOf ((path ++ ['/']) ++ t) = true := by
        rw [hq2]
        exact isPrefixOf_append_self _ _
      have hpp : (path ++ ['/']).isPrefixOf ((path ++ ['/']) ++ t) = true :=
        isPrefixOf_append_self _ _
      have hdpath : d = path → False := by
        rintro rfl
        have : fs.isdir d = true := (isdir_iff_mem fs d).mpr hdmem
        rw [hd] at this
        cases this
      rcases isPrefixOf_total _ _ _ hpd hpp with hab | hba
      · obtain ⟨u, hu⟩ := (myPrefix_iff _ _).mp hab
        by_cases hlen : d.length + 1 ≤ path.length
        · have hpre : (d ++ ['/']).isPrefixOf path = true :=
            prefix_of_append_ext (d ++ ['/']) path u hu (by simp; omega)
          obtain ⟨w, hw⟩ := (myPrefix_iff _ _).mp hpre
          have hn2 : n = w ++ '/' :: t := by
            apply List.append_cancel_left
            rw [← hq2, hw]
            simp
          apply hslash
          rw [hn2]
          simp
        · have hul : u = [] := by
            have hlth := congrArg List.length hu
            simp at hlth
            have : u.length = 0 := by omega
            exact List.eq_nil_of_length_eq_zero this
          subst hul
          rw [List.append_nil] at hu
          exact hdpath (List.append_inj' hu.symm rfl).1
      · obtain ⟨u, hu⟩ := (myPrefix_iff _ _).mp hba
        by_cases hlen : path.length + 1 ≤ d.length
        · have hpre : (path ++ ['/']).isPrefixOf d = true :=
            prefix_of_append_ext (path ++ ['/']) d u hu (by simp; omega)
          rw [hnd d hdmem] at hpre
          cases hpre
        · have hul : u = [] := by
            have hlth := congrArg List.length hu
            simp at hlth
            have : u.length = 0 := by omega
            exact List.eq_nil_of_length_eq_zero this
          subst hul
          rw [List.append_nil] at hu
          exact hdpath (List.append_inj' hu rfl).1
  rw [h1, h2]
  rfl

lemma writeBytes_under_file_fails {fs : FS} {path q : Str} (b : Bytes)
    (hd : fs.isdir path = false)
    (hnd : ∀ d ∈ fs.dirs, (path ++ ['/']).isPrefixOf d = false)
    (hq : (path ++ ['/']).isPrefixOf q = true) :
    fs.writeBytes q b = .error .notADirectoryError := by
  have hqd : fs.isdir q = false := by
    cases hc : fs.isdir q with
    | false => rfl
    | true =>
      have hqmem := (isdir_iff_mem fs q).mp hc
      rw [hnd q hqmem] at hq
      cases hq
  simp [FS.writeBytes, hqd, parentOk_false_under_file hd hnd hq]

lemma write_file_noop {fs : FS} {path q : Str} {d : Content}
    (hd : fs.isdir path = false)
    (hnd : ∀ dd ∈ fs.dirs, (path ++ ['/']).isPrefixOf dd = false)
    (hq : (path ++ ['/']).isPrefixOf q = true) :
    IOFiles.write_file fs q d = .ok fs := by
  unfold IOFiles.write_file
  rw [writeBytes_under_file_fails (.text "") hd hnd hq]

lemma write_json_at_noop {fs : FS} {path q : Str} {d : Content} {i : Nat}
    (hd : fs.isdir path = false)
    (hnd : ∀ dd ∈ fs.dirs, (path ++ ['/']).isPrefixOf dd = false)
    (hq : (path ++ ['/']).isPrefixOf q = true) :
    IOFiles.write_json_at fs q d i = .ok fs := by
  unfold IOFiles.write_json_at
  rw [writeBytes_under_file_fails (.text "") hd hnd hq]

lemma write_json_noop {fs : FS} {path q : Str} {d : Content} {i : Nat}
    (hd : fs.isdir path = false)
    (hnd : ∀ dd ∈ fs.dirs, (path ++ ['/']).isPrefixOf dd = false)
    (hq : (path ++ ['/']).isPrefixOf q = true) :
    IOFiles.write_json fs q d i = .ok fs := by
  unfold IOFiles.write_json
  by_cases hend : pyEndsWith q (".json".data) = true
  · rw [if_pos hend]
    exact write_json_at_noop hd hnd hq
  · rw [if_neg hend]
    have hq' : (path ++ ['/']).isPrefixOf (q ++ ".json".data) = true := by
      obtain ⟨t, rfl⟩ := (myPrefix_iff _ _).mp hq
      rw [List.append_assoc]
      exact isPrefixOf_append_self _ _
    exact write_json_at_noop hd hnd hq'

lemma write_df_noop {fs : FS} {path q : Str} {d : Content} {dt : Str}
    (hd : fs.isdir path = false)
    (hnd : ∀ dd ∈ fs.dirs, (path ++ ['/']).isPrefixOf dd = false)
    (hq : (path ++ ['/']).isPrefixOf q = true) :
    IOFiles.write_df fs q d dt = .ok fs := by
  unfold IOFiles.write_df
  cases d with
  | val j => rfl
  | frame f =>
    by_cases h1 : dt = "csv".data
    · simp only [if_pos h1]
      rw [writeBytes_under_file_fails (.csvDoc f) hd hnd hq]
      rfl
    · by_cases h2 : dt = "pickle".data
      · simp only [if_neg h1, if_pos h2]
        rw [writeBytes_under_file_fails (.pickleDoc f) hd hnd hq]
        rfl
      · by_cases h3 : dt = "xlsx".data
        · simp only [if_neg h1, if_neg h2, if_pos h3]
          rw [writeBytes_under_file_fails (.xlsxDoc f) hd hnd hq]
          rfl
        · simp only [if_neg h1, if_neg h2, if_neg h3]

lemma writeDirLoop_noop {path dtype : Str} {fs : FS}
    (hd : fs.isdir path = false)
    (hnd : ∀ dd ∈ fs.dirs, (path ++ ['/']).isPrefixOf dd = false) :
    ∀ todo, IOFiles.writeDirLoop path dtype fs todo = .ok fs := by
  intro todo
  induction todo with
  | nil => rfl
  | cons en rest ih =>
    obtain ⟨ident, c⟩ := en
    unfold IOFiles.writeDirLoop
    have hq : (path ++ ['/']).isPrefixOf
        (pjoin path (ident ++ '.' :: dtype)) = true := by
      rw [pjoin_decompose]
      exact isPrefixOf_append_self _ _
    by_cases h1 : dtype = "json".data
    · rw [if_pos h1, write_json_noop hd hnd hq]
      exact ih
    · by_cases h2 : dtype ∈ dataframeTags
      · rw [if_neg h1, if_pos h2, write_df_noop hd hnd hq]
        exact ih
      · rw [if_neg h1, if_neg h2, write_file_noop hd hnd hq]
        exact ih

lemma writeDirLoopAsync_noop {path dtype : Str} {fs : FS}
    (hd : fs.isdir path = false)
    (hnd : ∀ dd ∈ fs.dirs, (path ++ ['/']).isPrefixOf dd = false) :
    ∀ todo, IOFiles.writeDirLoopAsync path dtype fs todo = .ok fs := by
  intro todo
  induction todo with
  | nil => rfl
  | cons en rest ih =>
    obtain ⟨ident, c⟩ := en
    unfold IOFiles.writeDirLoopAsync
    have hq : (path ++ ['/']).isPrefixOf
        (pjoin path (ident ++ '.' :: dtype)) = true := by
      rw [pjoin_decompose]
      exact isPrefixOf_append_self _ _
    by_cases h1 : dtype = "json".data
    · have hja : IOFiles.write_json_async fs
          (pjoin path (ident ++ '.' :: dtype)) c 4 = .ok fs :=
        write_json_noop hd hnd hq
      rw [if_pos h1, hja]
      exact ih
    · have hfa : IOFiles.write_file_async fs
          (pjoin path (ident ++ '.' :: dtype)) c = .ok fs :=
        write_file_noop hd hnd hq
      rw [if_neg h1, hfa]
      exact ih

/-- Claim C10: when the target path names an existing regular file, the
    directory writers skip makedirs because the existence check passes,
    every per-entry write fails inside open and is swallowed, and the call
    returns with the filesystem unchanged: a silent no-op the caller
    cannot detect. -/
theorem C10_write_into_file_path (fs : FS) (path : Str)
    (contents : List (Str × Content)) (dtype : Str)
    (hf : fs.isfile path = true)
    (hd : fs.isdir path = false)
    (hnd : ∀ dd ∈ fs.dirs, (path ++ ['/']).isPrefixOf dd = false) :
    IOFiles.write_contents_to_dir fs path contents dtype = .ok fs ∧
    IOFiles.write_contents_to_dir_async fs path contents dtype = .ok fs := by
  have hex : fs.pathExists path = true := by
    unfold FS.pathExists
    rw [hf]
    simp
  constructor
  · unfold IOFiles.write_contents_to_dir
    rw [if_neg (by simp [hex])]
    exact writeDirLoop_noop hd hnd contents
  · unfold IOFiles.write_contents_to_dir_async
    rw [if_neg (by simp [hex])]
    exact writeDirLoopAsync_noop hd hnd contents

/-- Claim C10 witness: writing a mapping into the path of an existing
    regular file leaves the filesystem untouched and raises nothing. -/
theorem C10_witness :
    IOFiles.write_contents_to_dir ⟨[], [("p".data, Bytes.text "z")]⟩ "p".data
      [("x".data, Content.val (.str "v"))] "txt".data
      = .ok ⟨[], [("p".data, Bytes.text "z")]⟩ ∧
    IOFiles.write_contents_to_dir_async ⟨[], [("p".data, Bytes.text "z")]⟩
      "p".data [("x".data, Content.val (.str "v"))] "txt".data
      = .ok ⟨[], [("p".data, Bytes.text "z")]⟩ :=
  C10_write_into_file_path ⟨[], [("p".data, Bytes.text "z")]⟩ "p".data
    [("x".data, .val (.str "v"))] "txt".data rfl rfl (by decide)

/- ------------------------------------------------------------------ -/
/- Claim C2: write-then-read round trip.                              -/
/- ------------------------------------------------------------------ -/

lemma dirs1_no_descent {fs0 : FS} {path : Str}
    (hfr : ∀ p ∈ fs0.files.map (fun e => e.1) ++ fs0.dirs,
      (path ++ ['/']).isPrefixOf p = false) :
    ∀ d ∈ fs0.dirs ++ (pathPrefixes path).filter (fun q => !(fs0.isdir q)),
      (path ++ ['/']).isPrefixOf d = false := by
  intro d hd
  rcases List.mem_append.mp hd with h | h
  · exact hfr d (List.mem_append_right _ h)
  · exact pathPrefixes_no_descent (List.mem_filter.mp h).1

lemma isdir_join_false {dirs1 : List Str} {files : List (Str × Bytes)}
    {path name : Str}
    (hnodesc : ∀ d ∈ dirs1, (path ++ ['/']).isPrefixOf d = false) :
    FS.isdir ⟨dirs1, files⟩ (pjoin path name) = false := by
  have hq : (path ++ ['/']).isPrefixOf (pjoin path name) = true := by
    rw [pjoin_decompose]
    exact isPrefixOf_append_self _ _
  cases hc : FS.isdir ⟨dirs1, files⟩ (pjoin path name) with
  | false => rfl
  | true =>
    have hmem := (isdir_iff_mem _ _).mp hc
    rw [hnodesc _ hmem] at hq
    cases hq

lemma parentOk_join_true {dirs1 : List Str} {files : List (Str × Bytes)}
    {path name : Str} (hpath : path ∈ dirs1)
    (hn : '/' ∉ name) (hne : name ≠ []) :
    FS.parentOk ⟨dirs1, files⟩ (pjoin path name) = true := by
  unfold FS.parentOk
  have hjoin : (entryName path (pjoin path name)).isSome = true := by
    rw [entryName_pjoin path name hn hne]
    rfl
  have hany : dirs1.any (fun d => (entryName d (pjoin path name)).isSome) = true :=
    List.any_eq_true.mpr ⟨path, hpath, hjoin⟩
  rw [hany]
  simp

lemma writeBytes_fresh {dirs1 : List Str} {files : List (Str × Bytes)}
    {path name : Str} (hpath : path ∈ dirs1)
    (hnodesc : ∀ d ∈ dirs1, (path ++ ['/']).isPrefixOf d = false)
    (hn : '/' ∉ name) (hne : name ≠ [])
    (hk : ∀ e ∈ files, e.1 ≠ pjoin path name) (b : Bytes) :
    FS.writeBytes ⟨dirs1, files⟩ (pjoin path name) b
      = .ok ⟨dirs1, files ++ [(pjoin path name, b)]⟩ := by
  rw [writeBytes_pos (isdir_join_false hnodesc) (parentOk_join_true hpath hn hne)]
  rw [putFile_notMem files _ b hk]

lemma writeBytes_overwrite {dirs1 : List Str} {files : List (Str × Bytes)}
    {path name : Str} (hpath : path ∈ dirs1)
    (hnodesc : ∀ d ∈ dirs1, (path ++ ['/']).isPrefixOf d = false)
    (hn : '/' ∉ name) (hne : name ≠ [])
    (hk : ∀ e ∈ files, e.1 ≠ pjoin path name) (b0 b : Bytes) :
    FS.writeBytes ⟨dirs1, files ++ [(pjoin path name, b0)]⟩ (pjoin path name) b
      = .ok ⟨dirs1, files ++ [(pjoin path name, b)]⟩ := by
  rw [writeBytes_pos (isdir_join_false hnodesc) (parentOk_join_true hpath hn hne)]
  rw [putFile_last files _ b0 b hk]

lemma write_file_effect {fs : FS} {p : Str} {s : String} {fs1 fs2 : FS}
    (h1 : fs.writeBytes p (.text "") = .ok fs1)
    (h2 : fs1.writeBytes p (.text s) = .ok fs2) :
    IOFiles.write_file fs p (.val (.str s)) = .ok fs2 := by
  unfold IOFiles.write_file
  rw [h1]
  show IOFiles.writeCaught fs1 (fs1.writeBytes p (.text s)) = .ok fs2
  rw [h2]
  rfl

lemma write_json_at_effect {fs : FS} {p : Str} {j : JsonVal} {i : Nat}
    {fs1 fs2 : FS}
    (h1 : fs.writeBytes p (.text "") = .ok fs1)
    (h2 : fs1.writeBytes p (.jsonDoc j i) = .ok fs2) :
    IOFiles.write_json_at fs p (.val j) i = .ok fs2 := by
  unfold IOFiles.write_json_at
  rw [h1]
  show IOFiles.writeCaught fs1 (fs1.writeBytes p (.jsonDoc j i)) = .ok fs2
  rw [h2]
  rfl

lemma write_json_effect {fs : FS} {p : Str} {d : Content} {i : Nat} {fs' : FS}
    (hend : pyEndsWith p (".json".data) = true)
    (h : IOFiles.write_json_at fs p d i = .ok fs') :
    IOFiles.write_json fs p d i = .ok fs' := by
  unfold IOFiles.write_json
  rw [if_pos hend]
  exact h

lemma entryBytes_json {dtype : Str} (hj : dtype = "json".data) (j : JsonVal) :
    entryBytes dtype (.val j) = .jsonDoc j 4 := by
  cases j with
  | str s => simp [entryBytes, hj]
  | null => rfl
  | bool b => rfl
  | num n => rfl
  | arr es => rfl
  | obj fl => rfl

lemma entryBytes_raw {dtype : Str} (hj : dtype ≠ "json".data) (s : String) :
    entryBytes dtype (.val (.str s)) = .text s := by
  simp [entryBytes, hj]

lemma name_no_slash {ident dtype : Str} (hi : '/' ∉ ident) (hd : '/' ∉ dtype) :
    '/' ∉ ident ++ '.' :: dtype := by
  intro hmem
  rcases List.mem_append.mp hmem with h | h
  · exact hi h
  · rcases List.mem_cons.mp h with h | h
    · exact absurd h (by decide)
    · exact hd h

lemma name_ne_nil (ident dtype : Str) : ident ++ '.' :: dtype ≠ [] := by simp

lemma pjoin_inj {path a b : Str} (h : pjoin path a = pjoin path b) : a = b := by
  unfold pjoin at h
  exact (List.cons.inj (List.append_cancel_left h)).2

lemma name_inj {a b dtype : Str} (h : a ++ '.' :: dtype = b ++ '.' :: dtype) :
    a = b :=
  (List.append_inj' h rfl).1

lemma writeDirLoop_effect {fs0 : FS} {path dtype : Str} {dirs1 : List Str}
    (hpath : path ∈ dirs1)
    (hnodesc : ∀ d ∈ dirs1, (path ++ ['/']).isPrefixOf d = false)
    (hsl : '/' ∉ dtype)
    (hfreshf : ∀ e ∈ fs0.files, (path ++ ['/']).isPrefixOf e.1 = false)
    (htags : dtype ∉ dataframeTags) :
    ∀ (todo done : List (Str × Content)),
      (∀ iv ∈ done ++ todo, '/' ∉ iv.1) →
      ((done ++ todo).map Prod.fst).Nodup →
      (∀ iv ∈ todo, if dtype = "json".data then ∃ j, iv.2 = Content.val j
        else ∃ s, iv.2 = Content.val (.str s)) →
      IOFiles.writeDirLoop path dtype
          ⟨dirs1, fs0.files ++ entriesBytes path dtype done⟩ todo
        = .ok ⟨dirs1, fs0.files ++ entriesBytes path dtype (done ++ todo)⟩ := by
  intro todo
  induction todo with
  | nil =>
    intro done _ _ _
    rw [List.append_nil]
    rfl
  | cons en rest ih =>
    intro done hsi hnodup hvals
    obtain ⟨ident, c⟩ := en
    have hki : ∀ e ∈ fs0.files ++ entriesBytes path dtype done,
        e.1 ≠ pjoin path (ident ++ '.' :: dtype) := by
      intro e he heq
      rcases List.mem_append.mp he with h | h
      · have hx := hfreshf e h
        rw [heq, pjoin_decompose, isPrefixOf_append_self] at hx
        cases hx
      · obtain ⟨iv, hiv, hive⟩ := List.mem_map.mp h
        have he1 : e.1 = pjoin path (iv.1 ++ '.' :: dtype) := by
          rw [← hive]
        rw [he1] at heq
        have hid : iv.1 = ident := name_inj (pjoin_inj heq)
        have hmem1 : ident ∈ done.map Prod.fst := by
          rw [← hid]
          exact List.mem_map.mpr ⟨iv, hiv, rfl⟩
        have hnodup2 : (done.map Prod.fst
            ++ (((ident, c) :: rest).map Prod.fst)).Nodup := by
          rw [← List.map_append]
          exact hnodup
        exact (List.nodup_append.mp hnodup2).2.2 hmem1 (by simp)
    have hn : '/' ∉ ident ++ '.' :: dtype :=
      name_no_slash (hsi (ident, c) (by simp)) hsl
    have hne := name_ne_nil ident dtype
    have hassoc : (done ++ [(ident, c)]) ++ rest = done ++ (ident, c) :: rest := by
      simp
    have hcond1 : ∀ iv ∈ (done ++ [(ident, c)]) ++ rest, '/' ∉ iv.1 := by
      rw [hassoc]
      exact hsi
    have hcond2 : (((done ++ [(ident, c)]) ++ rest).map Prod.fst).Nodup := by
      rw [hassoc]
      exact hnodup
    have hcond3 : ∀ iv ∈ rest, if dtype = "json".data
        then ∃ j, iv.2 = Content.val j
        else ∃ s, iv.2 = Content.val (.str s) :=
      fun iv hiv => hvals iv (List.mem_cons_of_mem _ hiv)
    have hstep := ih (done ++ [(ident, c)]) hcond1 hcond2 hcond3
    rw [hassoc] at hstep
    by_cases hj : dtype = "json".data
    · have hvj := hvals (ident, c) (List.mem_cons_self _ _)
      rw [if_pos hj] at hvj
      obtain ⟨j, hjc0⟩ := hvj
      have hjc : c = Content.val j := hjc0
      have hw1 := writeBytes_fresh hpath hnodesc hn hne hki (Bytes.text "")
      have hw2 := writeBytes_overwrite hpath hnodesc hn hne hki
        (Bytes.text "") (Bytes.jsonDoc j 4)
      have hend : pyEndsWith (pjoin path (ident ++ '.' :: dtype))
          (".json".data) = true := by
        subst hj
        have hdec : pjoin path (ident ++ '.' :: "json".data)
            = (path ++ '/' :: ident) ++ (".json".data) := by
          show path ++ '/' :: (ident ++ '.' :: "json".data) = _
          rw [show (".json".data : Str) = '.' :: "json".data from rfl]
          simp
        rw [hdec]
        exact pyEndsWith_append _ _
      have hwj : IOFiles.write_json
          ⟨dirs1, fs0.files ++ entriesBytes path dtype done⟩
          (pjoin path (ident ++ '.' :: dtype)) c 4
          = .ok ⟨dirs1, (fs0.files ++ entriesBytes path dtype done)
              ++ [(pjoin path (ident ++ '.' :: dtype), Bytes.jsonDoc j 4)]⟩ := by
        rw [hjc]
        exact write_json_effect hend (write_json_at_effect hw1 hw2)
      have hfs2 : (⟨dirs1, fs0.files
            ++ entriesBytes path dtype (done ++ [(ident, c)])⟩ : FS)
          = ⟨dirs1, (fs0.files ++ entriesBytes path dtype done)
              ++ [(pjoin path (ident ++ '.' :: dtype), Bytes.jsonDoc j 4)]⟩ := by
        simp [entriesBytes, hjc, entryBytes_json hj]
      rw [hfs2] at hstep
      unfold IOFiles.writeDirLoop
      rw [if_pos hj, hwj]
      exact hstep
    · have hvs := hvals (ident, c) (List.mem_cons_self _ _)
      rw [if_neg hj] at hvs
      obtain ⟨s, hsc0⟩ := hvs
      have hsc : c = Content.val (.str s) := hsc0
      have hw1 := writeBytes_fresh hpath hnodesc hn hne hki (Bytes.text "")
      have hw2 := writeBytes_overwrite hpath hnodesc hn hne hki
        (Bytes.text "") (Bytes.text s)
      have hwf : IOFiles.write_file
          ⟨dirs1, fs0.files ++ entriesBytes path dtype done⟩
          (pjoin path (ident ++ '.' :: dtype)) c
          = .ok ⟨dirs1, (fs0.files ++ entriesBytes path dtype done)
              ++ [(pjoin path (ident ++ '.' :: dtype), Bytes.text s)]⟩ := by
        rw [hsc]
        exact write_file_effect hw1 hw2
      have hfs2 : (⟨dirs1, fs0.files
            ++ entriesBytes path dtype (done ++ [(ident, c)])⟩ : FS)
          = ⟨dirs1, (fs0.files ++ entriesBytes path dtype done)
              ++ [(pjoin path (ident ++ '.' :: dtype), Bytes.text s)]⟩ := by
        simp [entriesBytes, hsc, entryBytes_raw hj]
      rw [hfs2] at hstep
      unfold IOFiles.writeDirLoop
      rw [if_neg hj, if_neg htags, hwf]
      exact hstep

lemma filterMap_entries {path dtype : Str} (hsl : '/' ∉ dtype) :
    ∀ (l : List (Str × Content)), (∀ iv ∈ l, '/' ∉ iv.1) →
      ((entriesBytes path dtype l).map (fun e => e.1)).filterMap
        (fun p => entryName path p) = l.map (fun iv => iv.1 ++ '.' :: dtype) := by
  intro l
  induction l with
  | nil => intro _; rfl
  | cons iv rest ih =>
    intro hs
    obtain ⟨ident, c⟩ := iv
    have hn : '/' ∉ ident ++ '.' :: dtype :=
      name_no_slash (hs (ident, c) (by simp)) hsl
    simp only [entriesBytes, List.map_cons]
    rw [List.filterMap_cons_some
      (entryName_pjoin path _ hn (name_ne_nil ident dtype))]
    have ih2 := ih (fun iv2 h2 => hs iv2 (List.mem_cons_of_mem _ h2))
    simp only [entriesBytes] at ih2
    rw [ih2]

lemma listdir_entries {fs0 : FS} {path dtype : Str} {dirs1 : List Str}
    (hnodesc : ∀ d ∈ dirs1, (path ++ ['/']).isPrefixOf d = false)
    (hfreshf : ∀ e ∈ fs0.files, (path ++ ['/']).isPrefixOf e.1 = false)
    (hsl : '/' ∉ dtype) (contents : List (Str × Content))
    (hslash : ∀ iv ∈ contents, '/' ∉ iv.1) :
    FS.listdir ⟨dirs1, fs0.files ++ entriesBytes path dtype contents⟩ path
      = contents.map (fun iv => iv.1 ++ '.' :: dtype) := by
  unfold FS.listdir
  have h1 : (fs0.files.map (fun e => e.1)).filterMap
      (fun p => entryName path p) = [] := by
    rw [List.filterMap_eq_nil_iff]
    intro p hp
    obtain ⟨e, he, rfl⟩ := List.mem_map.mp hp
    exact entryName_none (hfreshf e he)
  have h3 : dirs1.filterMap (fun p => entryName path p) = [] := by
    rw [List.filterMap_eq_nil_iff]
    intro d hd
    exact entryName_none (hnodesc d hd)
  show (((fs0.files ++ entriesBytes path dtype contents).map (fun e => e.1))
      ++ dirs1).filterMap (fun p => entryName path p) = _
  rw [List.map_append, List.filterMap_append, List.filterMap_append,
    h1, h3, filterMap_entries hsl contents hslash]
  simp

lemma lookup_entriesBytes {path dtype : Str} :
    ∀ (l : List (Str × Content)) (iv : Str × Content), iv ∈ l →
      (l.map Prod.fst).Nodup →
      lookupBytes (entriesBytes path dtype l)
          (pjoin path (iv.1 ++ '.' :: dtype))
        = some (entryBytes dtype iv.2) := by
  intro l
  induction l with
  | nil => intro iv h _; cases h
  | cons hd0 rest ih =>
    intro iv hiv hnd
    obtain ⟨k, v⟩ := hd0
    have hnd2 : (k :: rest.map Prod.fst).Nodup := by simpa using hnd
    rcases List.mem_cons.mp hiv with rfl | hiv2
    · simp [entriesBytes, lookupBytes]
    · have hkne : k ≠ iv.1 := by
        intro hkeq
        have hmem : iv.1 ∈ rest.map Prod.fst := List.mem_map.mpr ⟨iv, hiv2, rfl⟩
        rw [← hkeq] at hmem
        exact (List.nodup_cons.mp hnd2).1 hmem
      have hpne : pjoin path (k ++ '.' :: dtype)
          ≠ pjoin path (iv.1 ++ '.' :: dtype) := by
        intro h
        exact hkne (name_inj (pjoin_inj h))
      simp only [entriesBytes, List.map_cons, lookupBytes]
      rw [if_neg hpne]
      have ih2 := ih iv hiv2 (List.nodup_cons.mp hnd2).2
      simp only [entriesBytes] at ih2
      exact ih2

lemma dictInsert_fresh {m : List (Str × Content)} {k : Str} (v : Content)
    (h : ∀ kv ∈ m, kv.1 ≠ k) : IOFiles.dictInsert m k v = m ++ [(k, v)] := by
  unfold IOFiles.dictInsert
  have hany : (m.any (fun kv => decide (kv.1 = k))) = false := by
    cases hc : m.any (fun kv => decide (kv.1 = k)) with
    | false => rfl
    | true =>
      obtain ⟨p, hp, hd⟩ := List.any_eq_true.mp hc
      exact absurd (of_decide_eq_true hd) (h p hp)
  simp [hany]

lemma readEntry_final {fs0 : FS} {path dtype : Str} {dirs1 : List Str}
    {contents : List (Str × Content)}
    (hnodesc : ∀ d ∈ dirs1, (path ++ ['/']).isPrefixOf d = false)
    (hfreshf : ∀ e ∈ fs0.files, (path ++ ['/']).isPrefixOf e.1 = false)
    (hnodup : (contents.map Prod.fst).Nodup)
    (htags : dtype ∉ dataframeTags)
    (hvals : ∀ iv ∈ contents, if dtype = "json".data
      then ∃ j, iv.2 = Content.val j else ∃ s, iv.2 = Content.val (.str s)) :
    ∀ iv ∈ contents,
      IOFiles.readEntry ⟨dirs1, fs0.files ++ entriesBytes path dtype contents⟩
        path (iv.1 ++ '.' :: dtype) dtype = .ok iv.2 := by
  intro iv hiv
  have hnotin : ∀ e ∈ fs0.files, e.1 ≠ pjoin path (iv.1 ++ '.' :: dtype) := by
    intro e he heq
    have hx := hfreshf e he
    rw [heq, pjoin_decompose, isPrefixOf_append_self] at hx
    cases hx
  have hopen : FS.openRead
      ⟨dirs1, fs0.files ++ entriesBytes path dtype contents⟩
      (pjoin path (iv.1 ++ '.' :: dtype)) = .ok (entryBytes dtype iv.2) := by
    unfold FS.openRead
    rw [if_neg (by rw [isdir_join_false hnodesc]; exact Bool.false_ne_true)]
    show (match lookupBytes (fs0.files ++ entriesBytes path dtype contents)
        (pjoin path (iv.1 ++ '.' :: dtype)) with
      | some b => Except.ok b
      | none => Except.error Exc.fileNotFound) = _
    rw [lookupBytes_append_left_none _ _ _ hnotin,
      lookup_entriesBytes contents iv hiv hnodup]
  unfold IOFiles.readEntry
  by_cases hj : dtype = "json".data
  · rw [if_pos hj]
    have hvj := hvals iv hiv
    rw [if_pos hj] at hvj
    obtain ⟨j, hjiv⟩ := hvj
    have hb : entryBytes dtype iv.2 = .jsonDoc j 4 := by
      rw [hjiv, entryBytes_json hj]
    rw [hb] at hopen
    have hrj : IOFiles.read_json
        ⟨dirs1, fs0.files ++ entriesBytes path dtype contents⟩
        (pjoin path (iv.1 ++ '.' :: dtype)) = .ok j := by
      unfold IOFiles.read_json
      rw [hopen]
      rfl
    rw [hrj, hjiv]
    rfl
  · rw [if_neg hj, if_neg htags]
    have hvs := hvals iv hiv
    rw [if_neg hj] at hvs
    obtain ⟨s, hsiv⟩ := hvs
    have hb : entryBytes dtype iv.2 = .text s := by
      rw [hsiv, entryBytes_raw hj]
    rw [hb] at hopen
    have hrf : IOFiles.read_file
        ⟨dirs1, fs0.files ++ entriesBytes path dtype contents⟩
        (pjoin path (iv.1 ++ '.' :: dtype)) = .ok s := by
      unfold IOFiles.read_file
      rw [hopen]
      rfl
    rw [hrf, hsiv]
    rfl

lemma readDirLoop_entries {fs : FS} {path dtype : Str} :
    ∀ (todo acc : List (Str × Content)),
      (∀ iv ∈ todo,
        IOFiles.readEntry fs path (iv.1 ++ '.' :: dtype) dtype = .ok iv.2) →
      (∀ iv ∈ todo, onlyTrailing ('.' :: dtype) iv.1 = true) →
      (∀ iv ∈ todo, ∀ kv ∈ acc, kv.1 ≠ iv.1) →
      (todo.map Prod.fst).Nodup →
      IOFiles.readDirLoop fs path dtype
          (todo.map (fun iv => iv.1 ++ '.' :: dtype)) acc
        = .ok (acc ++ todo) := by
  intro todo
  induction todo with
  | nil =>
    intro acc _ _ _ _
    rw [List.append_nil]
    rfl
  | cons iv rest ih =>
    intro acc hre hot hfreshk hnd
    obtain ⟨ident, c⟩ := iv
    have hnd2 : (ident :: rest.map Prod.fst).Nodup := by simpa using hnd
    have hend : pyEndsWith (ident ++ '.' :: dtype) dtype = true := by
      rw [show ident ++ '.' :: dtype = (ident ++ ['.']) ++ dtype by simp]
      exact pyEndsWith_append _ _
    have hrent : IOFiles.readEntry fs path (ident ++ '.' :: dtype) dtype
        = .ok c := hre (ident, c) (List.mem_cons_self _ _)
    have hrep : pyReplace (ident ++ '.' :: dtype) ('.' :: dtype) [] = ident :=
      pyReplace_trailing ('.' :: dtype) ident (by simp)
        (hot (ident, c) (List.mem_cons_self _ _))
    show IOFiles.readDirLoop fs path dtype
        ((ident ++ '.' :: dtype) :: rest.map (fun iv => iv.1 ++ '.' :: dtype))
        acc = _
    unfold IOFiles.readDirLoop
    rw [if_pos hend, hrent]
    show IOFiles.readDirLoop fs path dtype
        (rest.map (fun iv => iv.1 ++ '.' :: dtype))
        (IOFiles.dictInsert acc
          (pyReplace (ident ++ '.' :: dtype) ('.' :: dtype) []) c) = _
    rw [hrep, dictInsert_fresh c
      (fun kv hkv => hfreshk (ident, c) (List.mem_cons_self _ _) kv hkv)]
    have hfreshk2 : ∀ iv2 ∈ rest, ∀ kv ∈ acc ++ [(ident, c)], kv.1 ≠ iv2.1 := by
      intro iv2 hiv2 kv hkv
      rcases List.mem_append.mp hkv with h | h
      · exact hfreshk iv2 (List.mem_cons_of_mem _ hiv2) kv h
      · have hkv2 : kv = (ident, c) := by simpa using h
        rw [hkv2]
        intro heq
        have heq2 : ident = iv2.1 := heq
        have hmem : ident ∈ rest.map Prod.fst := by
          rw [heq2]
          exact List.mem_map.mpr ⟨iv2, hiv2, rfl⟩
        exact (List.nodup_cons.mp hnd2).1 hmem
    have ihk := ih (acc ++ [(ident, c)])
      (fun iv2 h2 => hre iv2 (List.mem_cons_of_mem _ h2))
      (fun iv2 h2 => hot iv2 (List.mem_cons_of_mem _ h2))
      hfreshk2 (List.nodup_cons.mp hnd2).2
    rw [show (acc ++ [(ident, c)]) ++ rest = acc ++ (ident, c) :: rest
      by simp] at ihk
    exact ihk

/-- Claim C2 counterexample. The claim says write-then-read returns
    exactly the original mapping for every mapping under the raw-text and
    json tags. It is false: an identifier that itself contains the dtype
    pattern is mangled on readback, because str.replace removes every
    occurrence. Writing the key a.json under tag json stores a.json.json,
    and reading the directory back keys it a, so the original key a.json
    is gone. -/
theorem C2_counterexample :
    (match IOFiles.write_contents_to_dir ⟨[], []⟩ "d".data
        [("a.json".data, .val (.obj .nil))] "json".data with
     | .ok fs' => IOFiles.read_dir_contents fs' "d".data "json".data
     | .error e => .error e).map (List.map Prod.fst)
      = .ok ["a".data] ∧
    "a".data ≠ "a.json".data :=
  ⟨rfl, by decide⟩

/-- Claim C2 (amended): writing a mapping to a fresh, creatable directory
    with a non-tabular, slash-free dtype and then reading it back with the
    same dtype returns exactly the original mapping, provided each
    identifier is slash-free and contains the dot-prefixed dtype pattern
    only as a trailing suffix, identifiers are distinct, and values match
    the tag (JSON-compatible values under json, strings under a raw tag).
    The write leaves exactly the expected files on disk and the read
    returns the original association list. -/
theorem C2_roundtrip (fs : FS) (path dtype : Str)
    (contents : List (Str × Content))
    (hfresh : freshTarget fs path)
    (hsl : '/' ∉ dtype)
    (htags : dtype ∉ dataframeTags)
    (hid : ∀ iv ∈ contents, identOk dtype iv.1)
    (hnodup : (contents.map Prod.fst).Nodup)
    (hvals : ∀ iv ∈ contents, if dtype = "json".data
      then ∃ j, iv.2 = Content.val j else ∃ s, iv.2 = Content.val (.str s)) :
    IOFiles.write_contents_to_dir fs path contents dtype
      = .ok ⟨fs.dirs ++ (pathPrefixes path).filter (fun q => !(fs.isdir q)),
          fs.files ++ entriesBytes path dtype contents⟩ ∧
    IOFiles.read_dir_contents
      ⟨fs.dirs ++ (pathPrefixes path).filter (fun q => !(fs.isdir q)),
        fs.files ++ entriesBytes path dtype contents⟩ path dtype
      = .ok contents := by
  obtain ⟨hne, hmk, hfr⟩ := hfresh
  have hpathmem : path ∈ fs.dirs
      ++ (pathPrefixes path).filter (fun q => !(fs.isdir q)) :=
    mem_dirs_after_makedirs path (mem_pathPrefixes_self path)
  have hnodesc := dirs1_no_descent hfr
  have hfreshf : ∀ e ∈ fs.files, (path ++ ['/']).isPrefixOf e.1 = false :=
    fun e he => hfr e.1 (List.mem_append_left _ (List.mem_map.mpr ⟨e, he, rfl⟩))
  have hslash : ∀ iv ∈ contents, '/' ∉ iv.1 := fun iv h => (hid iv h).1
  have hot : ∀ iv ∈ contents, onlyTrailing ('.' :: dtype) iv.1 = true :=
    fun iv h => (hid iv h).2
  constructor
  · unfold IOFiles.write_contents_to_dir
    rw [if_pos hne, makedirs_pos hmk]
    have heff := writeDirLoop_effect hpathmem hnodesc hsl hfreshf htags
      contents [] hslash hnodup hvals
    simp only [entriesBytes, List.map_nil, List.append_nil,
      List.nil_append] at heff
    have heff2 : IOFiles.writeDirLoop path dtype
        ⟨fs.dirs ++ (pathPrefixes path).filter (fun q => !(fs.isdir q)),
          fs.files⟩ contents
        = .ok ⟨fs.dirs ++ (pathPrefixes path).filter (fun q => !(fs.isdir q)),
            fs.files ++ entriesBytes path dtype contents⟩ := heff
    exact heff2
  · unfold IOFiles.read_dir_contents
    have hisdir : FS.isdir
        ⟨fs.dirs ++ (pathPrefixes path).filter (fun q => !(fs.isdir q)),
          fs.files ++ entriesBytes path dtype contents⟩ path = true :=
      (isdir_iff_mem _ _).mpr hpathmem
    have hguard : (FS.pathExists
        ⟨fs.dirs ++ (pathPrefixes path).filter (fun q => !(fs.isdir q)),
          fs.files ++ entriesBytes path dtype contents⟩ path
        && FS.isdir
        ⟨fs.dirs ++ (pathPrefixes path).filter (fun q => !(fs.isdir q)),
          fs.files ++ entriesBytes path dtype contents⟩ path) = true := by
      simp [FS.pathExists, hisdir]
    rw [if_pos hguard]
    rw [listdir_entries hnodesc hfreshf hsl contents hslash]
    have hre := readEntry_final hnodesc hfreshf hnodup htags hvals
    have hloop := readDirLoop_entries contents [] hre hot
      (fun iv _ kv hkv => absurd hkv (List.not_mem_nil kv)) hnodup
    simpa using hloop

/-- Claim C2 amended witness: a two-entry json mapping written into a
    fresh directory and read back unchanged. -/
theorem C2_witness :
    IOFiles.write_contents_to_dir ⟨[], []⟩ "d".data
        [("a".data, Content.val (.obj .nil)),
         ("b".data, Content.val (.str "v"))] "json".data
      = .ok ⟨([] : List Str)
            ++ (pathPrefixes "d".data).filter
              (fun q => !(FS.isdir ⟨[], []⟩ q)),
          ([] : List (Str × Bytes)) ++ entriesBytes "d".data "json".data
            [("a".data, Content.val (.obj .nil)),
             ("b".data, Content.val (.str "v"))]⟩ ∧
    IOFiles.read_dir_contents
      ⟨([] : List Str)
          ++ (pathPrefixes "d".data).filter (fun q => !(FS.isdir ⟨[], []⟩ q)),
        ([] : List (Str × Bytes)) ++ entriesBytes "d".data "json".data
          [("a".data, Content.val (.obj .nil)),
           ("b".data, Content.val (.str "v"))]⟩ "d".data "json".data
      = .ok [("a".data, Content.val (.obj .nil)),
             ("b".data, Content.val (.str "v"))] :=
  C2_roundtrip ⟨[], []⟩ "d".data "json".data
    [("a".data, Content.val (.obj .nil)), ("b".data, Content.val (.str "v"))]
    (by refine ⟨rfl, by decide, by decide⟩)
    (by decide) (by decide) (by decide) (by decide)
    (fun iv hiv => by
      rw [if_pos rfl]
      rcases List.mem_cons.mp hiv with rfl | h2
      · exact ⟨.obj .nil, rfl⟩
      · rcases List.mem_cons.mp h2 with rfl | h3
        · exact ⟨.str "v", rfl⟩
        · cases h3)
